import Mathlib

/-!
TaskScheduler: a verification development.

Shallow embedding of `src/TaskScheduler/TaskScheduler.cpp`.

* `long` values are integers.  The additions the program performs on them
  (`executionTime + frequency`, and `time(nullptr) + scheduledTime` in the constructor)
  are taken in 64-bit two's complement (`wrapLong`); signed overflow is undefined in C++, so
  every theorem that depends on such a sum states that the sum is representable (`inLong`).
* Task objects live on a heap (`Nat → Option Task`); the ready set holds
  `pair<long, Task*>`, that is a key together with an address.
* `std::priority_queue<PII, vector<PII>, CompareTask>` is library code; it is modelled by its
  contract: `push` adds an entry, `top` is an entry that `CompareTask` puts below no other entry
  (a smallest key), `pop` removes that entry.  Among equal keys the model takes the entry
  pushed first.
* A worker thread is a small state machine; one `work` event is one atomic piece of
  `TaskManager::worker`: the unlocked test of line 90, the locked section of lines 91-100,
  or the execution and rescheduling of lines 103-111.  The clock value read by
  `time(nullptr)` is an input of the event.  A thread that waits on the condition variable
  is a thread that receives no `work` event; a wake-up is its next `work` event.
* An exception that leaves `worker` ends the process (`std::terminate`); a member access
  through a deleted object is undefined behaviour.  Both are results of `step`, not states.
-/

namespace TaskScheduler

/-! ## Machine integers -/

/-- Two's complement wrap-around of a `long` (64 bits). -/
def wrapLong (x : Int) : Int := (x + 2 ^ 63) % 2 ^ 64 - 2 ^ 63

/-- The integer is representable as a `long`. -/
def inLong (x : Int) : Prop := -(2 ^ 63) ≤ x ∧ x < 2 ^ 63

instance (x : Int) : Decidable (inLong x) := by
  unfold inLong; infer_instance

/-! ## Tasks (lines 11-53) -/

/-- The enumeration `TaskType` of line 11. -/
inductive TaskType
  | OneTime
  | Recurring
  deriving DecidableEq, Repr

/-- Observable behaviour of the opaque callable `function<void()>` held by a task:
it returns normally or it throws. -/
inductive Action
  | returns
  | throws
  deriving DecidableEq, Repr

/-- The two concrete subclasses of `Task`.  `taskType` is fixed by the subclass constructor
(lines 37 and 47), `frequency` exists only in `RecurringTask`. -/
inductive Task
  | OneTimeTask (executionTime : Int) (taskAction : Action)
  | RecurringTask (executionTime : Int) (frequency : Int) (taskAction : Action)
  deriving DecidableEq, Repr

namespace Task

/-- Constructor `OneTimeTask(action, scheduledTime)` run when the clock reads `now`
(lines 19-21, 36-37). -/
def newOneTimeTask (now : Int) (action : Action) (scheduledTime : Int) : Task :=
  OneTimeTask (wrapLong (now + scheduledTime)) action

/-- Constructor `RecurringTask(action, freq, scheduledTime)` run when the clock reads `now`
(lines 19-21, 46-47). -/
def newRecurringTask (now : Int) (action : Action) (freq : Int) (scheduledTime : Int) : Task :=
  RecurringTask (wrapLong (now + scheduledTime)) freq action

/-- Method `Task::getTaskType` (line 28). -/
def getTaskType : Task → TaskType
  | OneTimeTask _ _ => TaskType.OneTime
  | RecurringTask _ _ _ => TaskType.Recurring

/-- Method `Task::getExecutionTime` (line 29). -/
def getExecutionTime : Task → Int
  | OneTimeTask e _ => e
  | RecurringTask e _ _ => e

/-- Method `Task::setExecutionTime` (line 30). -/
def setExecutionTime : Task → Int → Task
  | OneTimeTask _ a, newTime => OneTimeTask newTime a
  | RecurringTask _ f a, newTime => RecurringTask newTime f a

/-- Method `Task::getNextScheduledTime` (line 23) with its override in `RecurringTask`
(lines 50-52). -/
def getNextScheduledTime : Task → Int
  | OneTimeTask _ _ => -1
  | RecurringTask e f _ => wrapLong (e + f)

/-- Behaviour of `action()` (lines 38 and 48): it calls `taskAction`. -/
def action : Task → Action
  | OneTimeTask _ a => a
  | RecurringTask _ _ a => a

end Task

/-! ## The ready set (lines 67-79) -/

/-- The pair type `PII = pair<long, Task*>` of line 73: a key and the address of a task
object. -/
abbrev PII := Int × Nat

/-- The comparator `CompareTask::operator()` (lines 67-71). -/
def CompareTask (a b : PII) : Bool := decide (a.1 > b.1)

/-- Member `priority_queue::push`. -/
def pqPush (q : List PII) (x : PII) : List PII := q ++ [x]

/-- Member `priority_queue::top`: the entry that `CompareTask` orders below no other entry,
that is an entry with a smallest key. -/
def pqTop : List PII → Option PII
  | [] => none
  | x :: xs =>
    match pqTop xs with
    | none => some x
    | some y => if CompareTask x y then some y else some x

/-- The list without the first occurrence of `x`. -/
def pqRemove (x : PII) : List PII → List PII
  | [] => []
  | y :: ys => if y = x then ys else y :: pqRemove x ys

/-- Member `priority_queue::pop`: removes the entry returned by `top`. -/
def pqPop (q : List PII) : List PII :=
  match pqTop q with
  | none => q
  | some x => pqRemove x q

/-- Successive `top()`/`pop()` calls, `n` times. -/
def pqDrain : Nat → List PII → List PII
  | 0, _ => []
  | n + 1, q =>
    match pqTop q with
    | none => []
    | some x => x :: pqDrain n (pqPop q)

/-! ## Scheduler state -/

/-- Where a worker thread stands inside `TaskManager::worker` (lines 86-113). -/
inductive WorkerState
  /-- At the top of `while (true)`, before the test of line 90. -/
  | loopHead
  /-- Past the test of line 90, about to take the lock and wait (lines 91-92). -/
  | acquiring
  /-- Left the locked section with `nextWorkItem` popped; about to call `action()` (line 103). -/
  | running (nextWorkItem : PII)
  /-- Returned from `worker` (line 90). -/
  | returned
  /-- An exception left `worker`. -/
  | terminated
  deriving DecidableEq, Repr

/-- The `TaskManager` object together with the heap of task objects and the record of the
`action()` calls made so far. -/
structure Sched where
  /-- Task objects by address; `none` is an address with no live object. -/
  heap : Nat → Option Task
  /-- `TaskManager::tasks`. -/
  tasks : List PII
  /-- `TaskManager::stop`. -/
  stop : Bool
  /-- One state per thread of `TaskManager::threads`. -/
  workers : List WorkerState
  /-- The entries whose `action()` has been invoked, in order of invocation. -/
  log : List PII

/-- How a piece of the program can fail to produce a next state. -/
inductive Fault
  /-- A member access through an address with no live object. -/
  | undefinedBehaviour
  /-- An exception left the thread function `worker`: `std::terminate` ends the process in
  the given state. -/
  | terminateCalled (final : Sched)

/-- The constructor `TaskManager(n)` (lines 115-120): `n` threads, each at the start of `worker`. -/
def TaskManager (heap : Nat → Option Task) (n : Nat) : Sched :=
  { heap := heap, tasks := [], stop := false, workers := List.replicate n WorkerState.loopHead,
    log := [] }

/-- Method `TaskManager::stopScheduler` (lines 122-128). -/
def stopScheduler (s : Sched) : Sched := { s with stop := true }

/-- Method `TaskManager::AddTask` (lines 137-143): the key is read through the pointer. -/
def AddTask (s : Sched) (task : Nat) : Except Fault Sched :=
  match s.heap task with
  | none => Except.error Fault.undefinedBehaviour
  | some t => Except.ok { s with tasks := pqPush s.tasks (t.getExecutionTime, task) }

/-- The thread `w` moves to the given place in `worker`. -/
def setWorker (s : Sched) (w : Nat) (st : WorkerState) : Sched :=
  { s with workers := s.workers.set w st }

/-- Line 90: `if (tasks.empty() || stop) return;`. -/
def workerCheck (s : Sched) (w : Nat) : Sched :=
  if s.tasks.isEmpty || s.stop then setWorker s w WorkerState.returned
  else setWorker s w WorkerState.acquiring

/-- Lines 91-100, the locked section.  With an empty ready set `cv.wait` keeps the thread
blocked; with the earliest entry in the future the thread waits and takes `continue`;
otherwise the entry is popped. -/
def workerLocked (s : Sched) (w : Nat) (now : Int) : Sched :=
  match pqTop s.tasks with
  | none => s
  | some nextWorkItem =>
    if nextWorkItem.1 > now then setWorker s w WorkerState.loopHead
    else setWorker { s with tasks := pqPop s.tasks } w (WorkerState.running nextWorkItem)

/-- Lines 103-111: `action()` is invoked on the popped task; a Recurring task gets its
execution time advanced and is added again, any other task is deleted.  The lines run
without the lock and are one step here; that is exact for a task object held by one thread
only, which is the case when no address is passed to `AddTask` twice. -/
def workerExecute (s : Sched) (w : Nat) (nextWorkItem : PII) : Except Fault Sched :=
  match s.heap nextWorkItem.2 with
  | none => Except.error Fault.undefinedBehaviour
  | some currentTask =>
    let s1 : Sched := { s with log := s.log ++ [nextWorkItem] }
    match currentTask.action with
    | Action.throws => Except.error (Fault.terminateCalled (setWorker s1 w WorkerState.terminated))
    | Action.returns =>
      if currentTask.getTaskType = TaskType.Recurring then
        let nextScheduledTime := currentTask.getNextScheduledTime
        let s2 : Sched :=
          { s1 with heap := Function.update s1.heap nextWorkItem.2
                      (some (currentTask.setExecutionTime nextScheduledTime)) }
        match AddTask s2 nextWorkItem.2 with
        | Except.error f => Except.error f
        | Except.ok s3 => Except.ok (setWorker s3 w WorkerState.loopHead)
      else
        Except.ok (setWorker { s1 with heap := Function.update s1.heap nextWorkItem.2 none } w
          WorkerState.loopHead)

/-- What can happen to the scheduler. -/
inductive Event
  /-- A caller runs `AddTask(task)`. -/
  | addTask (task : Nat)
  /-- A caller runs `stopScheduler()`. -/
  | stopScheduler
  /-- Thread `w` runs its next piece of `worker`; `now` is what `time(nullptr)` returns. -/
  | work (w : Nat) (now : Int)
  deriving DecidableEq, Repr

/-- One event. -/
def step (s : Sched) : Event → Except Fault Sched
  | Event.addTask task => AddTask s task
  | Event.stopScheduler => Except.ok (stopScheduler s)
  | Event.work w now =>
    match s.workers[w]? with
    | none => Except.ok s
    | some WorkerState.loopHead => Except.ok (workerCheck s w)
    | some WorkerState.acquiring => Except.ok (workerLocked s w now)
    | some (WorkerState.running nextWorkItem) => workerExecute s w nextWorkItem
    | some WorkerState.returned => Except.ok s
    | some WorkerState.terminated => Except.ok s

/-- A sequence of events, in order. -/
def run (s : Sched) : List Event → Except Fault Sched
  | [] => Except.ok s
  | e :: es =>
    match step s e with
    | Except.error f => Except.error f
    | Except.ok s1 => run s1 es

/-- One pass of thread `w` through the body of `while (true)` with no other thread or caller
acting in between: the test of line 90, then the locked section, then the execution. -/
def workerIteration (s : Sched) (w : Nat) (now : Int) : Except Fault Sched :=
  let s1 := workerCheck s w
  if s1.workers[w]? = some WorkerState.acquiring then
    let s2 := workerLocked s1 w now
    match s2.workers[w]? with
    | some (WorkerState.running nextWorkItem) => workerExecute s2 w nextWorkItem
    | _ => Except.ok s2
  else Except.ok s1

/-- Successive passes of thread `w`, one per clock reading. -/
def workerIterations (s : Sched) (w : Nat) : List Int → Except Fault Sched
  | [] => Except.ok s
  | now :: rest =>
    match workerIteration s w now with
    | Except.error f => Except.error f
    | Except.ok s1 => workerIterations s1 w rest

/-! ## The scenario of `main` (lines 146-164) -/

/-- The three task objects built by `main` when the clock reads `t`: `task1` at address 0,
`task2` at address 1, `task3` at address 2. -/
def mainHeap (t : Int) : Nat → Option Task
  | 0 => some (Task.newOneTimeTask t Action.returns 0)
  | 1 => some (Task.newOneTimeTask t Action.returns 1)
  | 2 => some (Task.newRecurringTask t Action.returns 2 5)
  | _ => none

/-- The state after `TaskManager manager(2)`. -/
def mainStart (t : Int) : Sched := TaskManager (mainHeap t) 2

/-- The three `AddTask` calls of `main` (lines 157-159). -/
def mainSubmits : List Event := [Event.addTask 0, Event.addTask 1, Event.addTask 2]


/-- The state of `main` after its three `AddTask` calls, no thread having moved yet. -/
def mainQueued (t : Int) : Sched :=
  { heap := mainHeap t, tasks := [(t, 0), (t + 1, 1), (t + 5, 2)], stop := false,
    workers := [WorkerState.loopHead, WorkerState.loopHead], log := [] }

/-- A scheduler with one thread and one Recurring task queued: the object at address 0, due
at 100 with period 2, whose action behaves as given. -/
def oneRecurring (a : Action) : Sched :=
  { heap := fun p => if p = 0 then some (Task.RecurringTask 100 2 a) else none,
    tasks := [(100, 0)], stop := false, workers := [WorkerState.loopHead], log := [] }

/-- How often `action()` has been invoked on the object at address `p`. -/
def executions (s : Sched) (p : Nat) : Nat := s.log.countP (fun item => item.2 = p)

/-- The address a thread holds outside the ready set: that of its popped entry. -/
def holding : WorkerState → List Nat
  | WorkerState.running nextWorkItem => [nextWorkItem.2]
  | _ => []

/-- The addresses held by the threads. -/
def held : List WorkerState → List Nat
  | [] => []
  | st :: ws => holding st ++ held ws

/-- The addresses the scheduler owns: those in the ready set and those held by the threads. -/
def owned (s : Sched) : List Nat := s.tasks.map Prod.snd ++ held s.workers

/-- The addresses passed to `AddTask` by the callers, in order. -/
def submits : List Event → List Nat
  | [] => []
  | Event.addTask task :: es => task :: submits es
  | Event.stopScheduler :: es => submits es
  | Event.work _ _ :: es => submits es

/-- The execution time of a Recurring task after one more execution (line 51). -/
def advance (frequency : Int) (executionTime : Int) : Int := wrapLong (executionTime + frequency)

/-- How often the address `p` occurs in a list of addresses. -/
def occ (p : Nat) (l : List Nat) : Nat := l.countP (fun q => decide (q = p))

/-- The five ways in which an event yields a next state. -/
inductive StepKind (s s1 : Sched) (ev : Event) : Prop
  /-- `AddTask` on a live task. -/
  | add (task : Nat) (t : Task) (hev : ev = Event.addTask task) (hp : s.heap task = some t)
      (hs1 : s1 = { s with tasks := pqPush s.tasks (t.getExecutionTime, task) })
  /-- Nothing but the stop flag or the place of a thread that holds no task changes. -/
  | quiet (hev : submits [ev] = []) (hheap : s1.heap = s.heap) (htasks : s1.tasks = s.tasks)
      (hlog : s1.log = s.log) (hheld : List.Perm (held s1.workers) (held s.workers))
  /-- A thread pops the earliest entry, which is due. -/
  | pop (w : Nat) (now : Int) (item : PII) (hev : ev = Event.work w now)
      (hw : s.workers[w]? = some WorkerState.acquiring)
      (htop : pqTop s.tasks = some item) (hdue : item.1 ≤ now)
      (hheap : s1.heap = s.heap) (htasks : s1.tasks = pqPop s.tasks) (hlog : s1.log = s.log)
      (hheld : List.Perm (held s1.workers) (item.2 :: held s.workers))
  /-- A thread executes a Recurring task and adds it again. -/
  | recur (w : Nat) (now : Int) (item : PII) (e f : Int) (hev : ev = Event.work w now)
      (hw : s.workers[w]? = some (WorkerState.running item))
      (hp : s.heap item.2 = some (Task.RecurringTask e f Action.returns))
      (hheap : s1.heap = Function.update s.heap item.2
        (some (Task.RecurringTask (wrapLong (e + f)) f Action.returns)))
      (htasks : s1.tasks = pqPush s.tasks (wrapLong (e + f), item.2))
      (hlog : s1.log = s.log ++ [item])
      (hheld : List.Perm (item.2 :: held s1.workers) (held s.workers))
  /-- A thread executes a OneTime task and deletes it. -/
  | once (w : Nat) (now : Int) (item : PII) (e : Int) (hev : ev = Event.work w now)
      (hw : s.workers[w]? = some (WorkerState.running item))
      (hp : s.heap item.2 = some (Task.OneTimeTask e Action.returns))
      (hheap : s1.heap = Function.update s.heap item.2 none)
      (htasks : s1.tasks = s.tasks) (hlog : s1.log = s.log ++ [item])
      (hheld : List.Perm (item.2 :: held s1.workers) (held s.workers))

/-- Every entry of the ready set is keyed by the execution time of its task. -/
def KeysAgree (s : Sched) : Prop :=
  ∀ k p, (k, p) ∈ s.tasks → ∃ t, s.heap p = some t ∧ t.getExecutionTime = k

/-- Each address is owned at most once, counting the submissions still to come. -/
def OwnedOnce (s : Sched) (rest : List Event) : Prop :=
  ∀ p, occ p (owned s) + occ p (submits rest) ≤ 1

/-- For an address that never holds a Recurring task: ownership, executions and the
submissions still to come add up to at most one. -/
def OnceOnly (p : Nat) (s : Sched) (rest : List Event) : Prop :=
  (∀ e f a, s.heap p ≠ some (Task.RecurringTask e f a)) ∧
  occ p (owned s) + executions s p + occ p (submits rest) ≤ 1

/-- The entry `AddTask` pushes for the task at address `p` (line 140). -/
def entryOf (heap : Nat → Option Task) (p : Nat) : PII :=
  (match heap p with
    | some t => t.getExecutionTime
    | none => 0, p)

/-- The state in which a piece of the program ends: the next state, or the state in which
`std::terminate` is called.  Undefined behaviour has none. -/
def endState : Except Fault Sched → Option Sched
  | Except.ok s => some s
  | Except.error (Fault.terminateCalled s) => some s
  | Except.error Fault.undefinedBehaviour => none

/-! ## The ready set: what top and pop return -/


theorem pqTop_nil : pqTop [] = none := rfl

theorem pqTop_cons (x : PII) (xs : List PII) :
    pqTop (x :: xs) =
      match pqTop xs with
      | none => some x
      | some y => if CompareTask x y then some y else some x := rfl

theorem pqTop_eq_none {q : List PII} : pqTop q = none ↔ q = [] := by
  cases q with
  | nil => simp [pqTop_nil]
  | cons x xs =>
    simp only [pqTop_cons]
    cases h : pqTop xs with
    | none => simp
    | some y => by_cases c : CompareTask x y = true <;> simp [c]

theorem pqTop_mem {q : List PII} {x : PII} (h : pqTop q = some x) : x ∈ q := by
  induction q generalizing x with
  | nil => simp [pqTop_nil] at h
  | cons a as ih =>
    rw [pqTop_cons] at h
    cases hy : pqTop as with
    | none =>
      rw [hy] at h
      simp only [Option.some.injEq] at h
      simp [h]
    | some y =>
      rw [hy] at h
      by_cases c : CompareTask a y = true
      · simp only [c, if_true, Option.some.injEq] at h
        subst h
        exact List.mem_cons_of_mem _ (ih hy)
      · simp only [c, Option.some.injEq] at h
        simp at h
        simp [h]

theorem pqTop_le {q : List PII} {x : PII} (h : pqTop q = some x) : ∀ y ∈ q, x.1 ≤ y.1 := by
  induction q generalizing x with
  | nil => simp
  | cons a as ih =>
    rw [pqTop_cons] at h
    cases hy : pqTop as with
    | none =>
      rw [hy] at h
      simp only [Option.some.injEq] at h
      have hnil : as = [] := pqTop_eq_none.mp hy
      subst hnil
      subst h
      simp
    | some z =>
      rw [hy] at h
      have hz := ih hy
      by_cases c : CompareTask a z = true
      · simp only [c, if_true, Option.some.injEq] at h
        subst h
        simp only [CompareTask, decide_eq_true_eq] at c
        intro y hyq
        rcases List.mem_cons.mp hyq with rfl | hmem
        · omega
        · exact hz y hmem
      · simp only [c, Option.some.injEq] at h
        simp at h
        subst h
        simp only [CompareTask, decide_eq_true_eq, not_lt] at c
        intro y hyq
        rcases List.mem_cons.mp hyq with rfl | hmem
        · exact le_refl _
        · have := hz y hmem
          omega

theorem pqRemove_perm {q : List PII} {x : PII} (h : x ∈ q) :
    List.Perm (x :: pqRemove x q) q := by
  induction q with
  | nil => simp at h
  | cons a as ih =>
    by_cases c : a = x
    · subst c
      simp [pqRemove]
    · have hx : x ∈ as := by
        rcases List.mem_cons.mp h with rfl | hm
        · exact absurd rfl c
        · exact hm
      simp only [pqRemove, c, if_false]
      exact (List.Perm.swap a x _).trans (List.Perm.cons a (ih hx))

theorem pqPop_perm {q : List PII} {x : PII} (h : pqTop q = some x) :
    List.Perm (x :: pqPop q) q := by
  simp only [pqPop, h]
  exact pqRemove_perm (pqTop_mem h)

theorem pqPop_length {q : List PII} {x : PII} (h : pqTop q = some x) :
    (pqPop q).length + 1 = q.length := by
  have := (pqPop_perm h).length_eq
  simpa using this

theorem pqDrain_perm (n : Nat) (q : List PII) (hn : q.length = n) :
    List.Perm (pqDrain n q) q := by
  induction n generalizing q with
  | zero =>
    have : q = [] := List.length_eq_zero.mp hn
    subst this
    simp [pqDrain]
  | succ n ih =>
    cases h : pqTop q with
    | none =>
      have : q = [] := pqTop_eq_none.mp h
      subst this
      simp at hn
    | some x =>
      simp only [pqDrain, h]
      have hl := pqPop_length h
      have hp := ih (pqPop q) (by omega)
      exact (List.Perm.cons x hp).trans (pqPop_perm h)

theorem pqDrain_sorted (n : Nat) (q : List PII) (hn : q.length = n) :
    List.Pairwise (fun a b => a.1 ≤ b.1) (pqDrain n q) := by
  induction n generalizing q with
  | zero => simp [pqDrain]
  | succ n ih =>
    cases h : pqTop q with
    | none => simp [pqDrain, h]
    | some x =>
      simp only [pqDrain, h]
      have hl := pqPop_length h
      refine List.pairwise_cons.mpr ⟨?_, ih (pqPop q) (by omega)⟩
      intro y hy
      have hy1 : y ∈ pqPop q := (pqDrain_perm n (pqPop q) (by omega)).subset hy
      have hy2 : y ∈ q := (pqPop_perm h).subset (List.mem_cons_of_mem _ hy1)
      exact pqTop_le h y hy2


/-! ## One pass of a worker -/


theorem set_self_of_getElem? {α : Type} {l : List α} {w : Nat} {a : α}
    (h : l[w]? = some a) : l.set w a = l := by
  induction l generalizing w with
  | nil => simp at h
  | cons x xs ih =>
    cases w with
    | zero => simp at h; simp [h]
    | succ n => simp at h; simp [ih h]

theorem getElem?_set_of_getElem? {α : Type} {l : List α} {w : Nat} {a b : α}
    (h : l[w]? = some a) : (l.set w b)[w]? = some b := by
  have hlt : w < l.length := by
    by_contra hc
    have : l[w]? = none := List.getElem?_eq_none (by omega)
    rw [this] at h
    cases h
  simp [List.getElem?_set, hlt]

@[simp] theorem setWorker_tasks (s : Sched) (w : Nat) (st : WorkerState) :
    (setWorker s w st).tasks = s.tasks := rfl
@[simp] theorem setWorker_heap (s : Sched) (w : Nat) (st : WorkerState) :
    (setWorker s w st).heap = s.heap := rfl
@[simp] theorem setWorker_stop (s : Sched) (w : Nat) (st : WorkerState) :
    (setWorker s w st).stop = s.stop := rfl
@[simp] theorem setWorker_log (s : Sched) (w : Nat) (st : WorkerState) :
    (setWorker s w st).log = s.log := rfl
@[simp] theorem setWorker_workers (s : Sched) (w : Nat) (st : WorkerState) :
    (setWorker s w st).workers = s.workers.set w st := rfl

/-- A pass that starts with the stop flag set or with an empty ready set ends at line 90. -/
theorem workerIteration_return (s : Sched) (w : Nat) (now : Int)
    (hw : s.workers[w]? = some WorkerState.loopHead)
    (h : s.tasks = [] ∨ s.stop = true) :
    workerIteration s w now = Except.ok (setWorker s w WorkerState.returned) := by
  have hc : workerCheck s w = setWorker s w WorkerState.returned := by
    unfold workerCheck
    rcases h with h | h <;> simp [h]
  unfold workerIteration
  simp only [hc, setWorker_workers, getElem?_set_of_getElem? hw]
  simp

/-- A pass that starts with the stop flag clear and a non-empty ready set reaches the locked
section. -/
theorem workerCheck_pass (s : Sched) (w : Nat) (h1 : s.tasks ≠ []) (h2 : s.stop = false) :
    workerCheck s w = setWorker s w WorkerState.acquiring := by
  unfold workerCheck
  cases ht : s.tasks with
  | nil => exact absurd ht h1
  | cons x xs => simp [h2]

theorem pqTop_ne_nil {q : List PII} {x : PII} (h : pqTop q = some x) : q ≠ [] := by
  intro hq
  rw [hq, pqTop_nil] at h
  cases h

/-- A pass whose earliest entry lies in the future changes nothing. -/
theorem workerIteration_wait (s : Sched) (w : Nat) (now : Int) (item : PII)
    (hw : s.workers[w]? = some WorkerState.loopHead) (hs : s.stop = false)
    (ht : pqTop s.tasks = some item) (hn : item.1 > now) :
    workerIteration s w now = Except.ok s := by
  have hc := workerCheck_pass s w (pqTop_ne_nil ht) hs
  have hl : workerLocked (setWorker s w WorkerState.acquiring) w now = s := by
    unfold workerLocked
    simp only [setWorker_tasks, ht, hn, if_true]
    cases s with
    | mk heap tasks stop workers log =>
      simp only [setWorker, List.set_set]
      simp only at hw
      rw [set_self_of_getElem? hw]
  unfold workerIteration
  simp only [hc, setWorker_workers, getElem?_set_of_getElem? hw, if_true, hl, hw]

/-- A pass whose earliest entry is due pops it and executes it. -/
theorem workerIteration_due (s : Sched) (w : Nat) (now : Int) (item : PII)
    (hw : s.workers[w]? = some WorkerState.loopHead) (hs : s.stop = false)
    (ht : pqTop s.tasks = some item) (hn : item.1 ≤ now) :
    workerIteration s w now =
      workerExecute (setWorker { s with tasks := pqPop s.tasks } w (WorkerState.running item))
        w item := by
  have hc := workerCheck_pass s w (pqTop_ne_nil ht) hs
  have hnn : ¬ item.1 > now := by omega
  have hl : workerLocked (setWorker s w WorkerState.acquiring) w now =
      setWorker { s with tasks := pqPop s.tasks } w (WorkerState.running item) := by
    unfold workerLocked
    simp only [setWorker_tasks, ht, hnn, if_false]
    simp only [setWorker, List.set_set]
  unfold workerIteration
  simp only [hc, setWorker_workers, getElem?_set_of_getElem? hw, if_true, hl]



theorem wrapLong_of_inLong {x : Int} (h : inLong x) : wrapLong x = x := by
  unfold inLong at h
  unfold wrapLong
  omega

/-- Execution of a Recurring task whose action returns (lines 103-108). -/
theorem workerExecute_recurring (s : Sched) (w : Nat) (item : PII) (e f : Int)
    (hp : s.heap item.2 = some (Task.RecurringTask e f Action.returns)) :
    workerExecute s w item =
      Except.ok (setWorker
        { s with
          heap := Function.update s.heap item.2
            (some (Task.RecurringTask (wrapLong (e + f)) f Action.returns))
          tasks := pqPush s.tasks (wrapLong (e + f), item.2)
          log := s.log ++ [item] } w WorkerState.loopHead) := by
  unfold workerExecute
  simp [hp, Task.action, Task.getTaskType, Task.getNextScheduledTime, Task.setExecutionTime,
    AddTask, Task.getExecutionTime]

/-- Execution of a OneTime task whose action returns (lines 103, 109-111). -/
theorem workerExecute_oneTime (s : Sched) (w : Nat) (item : PII) (e : Int)
    (hp : s.heap item.2 = some (Task.OneTimeTask e Action.returns)) :
    workerExecute s w item =
      Except.ok (setWorker
        { s with
          heap := Function.update s.heap item.2 none
          log := s.log ++ [item] } w WorkerState.loopHead) := by
  unfold workerExecute
  simp [hp, Task.action, Task.getTaskType]

/-- Execution of a task whose action throws (line 103): nothing catches the exception. -/
theorem workerExecute_throws (s : Sched) (w : Nat) (item : PII) (t : Task)
    (hp : s.heap item.2 = some t) (ha : t.action = Action.throws) :
    workerExecute s w item =
      Except.error (Fault.terminateCalled
        (setWorker { s with log := s.log ++ [item] } w WorkerState.terminated)) := by
  unfold workerExecute
  simp [hp, ha]


/-! ## Inversion of the execution step -/

/-- When the execution step yields a next state, the task was live, its action returned, and
the next state is the one of `workerExecute_recurring` or of `workerExecute_oneTime`. -/
theorem workerExecute_ok_inv {s s1 : Sched} {w : Nat} {item : PII}
    (h : workerExecute s w item = Except.ok s1) :
    (∃ e f, s.heap item.2 = some (Task.RecurringTask e f Action.returns) ∧
      s1 = setWorker
        { s with
          heap := Function.update s.heap item.2
            (some (Task.RecurringTask (wrapLong (e + f)) f Action.returns))
          tasks := pqPush s.tasks (wrapLong (e + f), item.2)
          log := s.log ++ [item] } w WorkerState.loopHead) ∨
    (∃ e, s.heap item.2 = some (Task.OneTimeTask e Action.returns) ∧
      s1 = setWorker
        { s with
          heap := Function.update s.heap item.2 none
          log := s.log ++ [item] } w WorkerState.loopHead) := by
  cases hp : s.heap item.2 with
  | none => simp [workerExecute, hp] at h
  | some t =>
    cases t with
    | OneTimeTask e a =>
      cases a with
      | returns =>
        right
        rw [workerExecute_oneTime s w item e hp] at h
        exact ⟨e, rfl, (Except.ok.inj h).symm⟩
      | throws =>
        rw [workerExecute_throws s w item _ hp rfl] at h
        cases h
    | RecurringTask e f a =>
      cases a with
      | returns =>
        left
        rw [workerExecute_recurring s w item e f hp] at h
        exact ⟨e, f, rfl, (Except.ok.inj h).symm⟩
      | throws =>
        rw [workerExecute_throws s w item _ hp rfl] at h
        cases h

/-- The state in which the execution step ends has the executed entry appended to the
record, and nothing else appended. -/
theorem workerExecute_endState_log {s s1 : Sched} {w : Nat} {item : PII}
    (h : endState (workerExecute s w item) = some s1) : s1.log = s.log ++ [item] := by
  cases hp : s.heap item.2 with
  | none => simp [workerExecute, hp, endState] at h
  | some t =>
    cases ha : t.action with
    | throws =>
      rw [workerExecute_throws s w item t hp ha] at h
      simp only [endState, Option.some.injEq] at h
      subst h
      rfl
    | returns =>
      cases hr : workerExecute s w item with
      | error f =>
        exfalso
        unfold workerExecute at hr
        simp only [hp, ha] at hr
        split at hr
        · simp only [AddTask, Function.update_same] at hr
          cases hr
        · cases hr
      | ok s2 =>
        rw [hr] at h
        simp only [endState, Option.some.injEq] at h
        subst h
        rcases workerExecute_ok_inv hr with ⟨e, f, _, rfl⟩ | ⟨e, _, rfl⟩ <;> rfl

/-- A step leaves the threads it does not move where they are. -/
theorem step_workers_other {s s1 : Sched} {e : Event} {w : Nat}
    (h : step s e = Except.ok s1) (hne : ∀ now, e ≠ Event.work w now) :
    s1.workers[w]? = s.workers[w]? := by
  cases e with
  | addTask task =>
    simp only [step, AddTask] at h
    cases hp : s.heap task with
    | none => simp [hp] at h
    | some t =>
      simp only [hp, Except.ok.injEq] at h
      subst h
      rfl
  | stopScheduler =>
    simp only [step, Except.ok.injEq] at h
    subst h
    rfl
  | work v now =>
    have hv : v ≠ w := by
      intro hvw
      exact hne now (by rw [hvw])
    simp only [step] at h
    cases hs : s.workers[v]? with
    | none =>
      simp only [hs, Except.ok.injEq] at h
      subst h
      rfl
    | some st =>
      cases st with
      | loopHead =>
        simp only [hs, Except.ok.injEq] at h
        subst h
        unfold workerCheck
        split <;> simp [List.getElem?_set_ne hv]
      | acquiring =>
        simp only [hs, Except.ok.injEq] at h
        subst h
        unfold workerLocked
        split
        · rfl
        · split <;> simp [List.getElem?_set_ne hv]
      | running item =>
        simp only [hs] at h
        rcases workerExecute_ok_inv h with ⟨e, f, _, rfl⟩ | ⟨e, _, rfl⟩ <;>
          simp [List.getElem?_set_ne hv]
      | returned =>
        simp only [hs, Except.ok.injEq] at h
        subst h
        rfl
      | terminated =>
        simp only [hs, Except.ok.injEq] at h
        subst h
        rfl

/-- A thread that has returned from `worker` stays returned. -/
theorem step_keeps_returned (s s1 : Sched) (e : Event) (w : Nat)
    (hw : s.workers[w]? = some WorkerState.returned) (h : step s e = Except.ok s1) :
    s1.workers[w]? = some WorkerState.returned := by
  by_cases hc : ∃ now, e = Event.work w now
  · obtain ⟨now, rfl⟩ := hc
    simp only [step, hw, Except.ok.injEq] at h
    subst h
    exact hw
  · rw [step_workers_other h (fun now hnow => hc ⟨now, hnow⟩)]
    exact hw


/-! ## The scenario of `main`: the queue after the three submissions -/

theorem mainSubmits_run (t : Int) (h0 : inLong t) (h5 : inLong (t + 5)) :
    run (mainStart t) mainSubmits = Except.ok (mainQueued t) := by
  have h1 : inLong (t + 1) := by unfold inLong at *; omega
  simp [run, step, mainStart, mainSubmits, AddTask, TaskManager, mainHeap, Task.newOneTimeTask,
    Task.newRecurringTask, Task.getExecutionTime, wrapLong_of_inLong h5, wrapLong_of_inLong h1,
    wrapLong_of_inLong h0, pqPush, mainQueued]

/-! ## Claims about one pass of a worker -/

/-- C4. When the stop flag is set, a pass of a worker that starts at the loop head returns from
`worker` at line 90: the ready set, the heap, the stop flag and the record of executed
entries are unchanged, whatever the queue holds and whatever the clock reads, and every
later move of that thread changes nothing. -/
theorem stopped_worker_returns (s : Sched) (w : Nat) (now : Int)
    (hw : s.workers[w]? = some WorkerState.loopHead) (hs : s.stop = true) :
    ∃ s1, workerIteration s w now = Except.ok s1 ∧
      s1.workers[w]? = some WorkerState.returned ∧
      s1.tasks = s.tasks ∧ s1.log = s.log ∧ s1.heap = s.heap ∧ s1.stop = true ∧
      ∀ later, step s1 (Event.work w later) = Except.ok s1 := by
  refine ⟨setWorker s w WorkerState.returned,
    workerIteration_return s w now hw (Or.inr hs), ?_, rfl, rfl, rfl, hs, ?_⟩
  · exact getElem?_set_of_getElem? hw
  · intro later
    have : (setWorker s w WorkerState.returned).workers[w]? = some WorkerState.returned :=
      getElem?_set_of_getElem? hw
    simp only [step, this]

theorem stopped_worker_returns_witness :
    (stopScheduler (mainQueued 100)).workers[0]? = some WorkerState.loopHead ∧
    (stopScheduler (mainQueued 100)).stop = true ∧
    ∃ s1, workerIteration (stopScheduler (mainQueued 100)) 0 105 = Except.ok s1 ∧
      s1.workers[0]? = some WorkerState.returned ∧
      s1.tasks = (stopScheduler (mainQueued 100)).tasks ∧
      s1.log = (stopScheduler (mainQueued 100)).log ∧
      s1.heap = (stopScheduler (mainQueued 100)).heap ∧ s1.stop = true ∧
      ∀ later, step s1 (Event.work 0 later) = Except.ok s1 :=
  ⟨rfl, rfl, stopped_worker_returns (stopScheduler (mainQueued 100)) 0 105 rfl rfl⟩

/-- C6, the code at the failing input.  With the stop flag clear and the ready set empty, a
pass of a worker returns from `worker` at line 90 (`tasks.empty()` is part of the exit
test): the thread does not wait, and no later event moves it again, also not after a task
has been added. -/
theorem idle_worker_returns (s : Sched) (w : Nat) (now : Int)
    (hw : s.workers[w]? = some WorkerState.loopHead) (hs : s.stop = false)
    (he : s.tasks = []) :
    ∃ s1, workerIteration s w now = Except.ok s1 ∧
      s1.workers[w]? = some WorkerState.returned ∧ s1.stop = false ∧
      ∀ (evs : List Event) (s2 : Sched), run s1 evs = Except.ok s2 →
        s2.workers[w]? = some WorkerState.returned := by
  refine ⟨setWorker s w WorkerState.returned,
    workerIteration_return s w now hw (Or.inl he), getElem?_set_of_getElem? hw, hs, ?_⟩
  have key : ∀ (evs : List Event) (a b : Sched), a.workers[w]? = some WorkerState.returned →
      run a evs = Except.ok b → b.workers[w]? = some WorkerState.returned := by
    intro evs
    induction evs with
    | nil =>
      intro a b ha hr
      simp only [run, Except.ok.injEq] at hr
      subst hr
      exact ha
    | cons e es ih =>
      intro a b ha hr
      simp only [run] at hr
      cases hstep : step a e with
      | error f => rw [hstep] at hr; cases hr
      | ok a1 =>
        rw [hstep] at hr
        refine ih a1 b ?_ hr
        exact step_keeps_returned a a1 e w ha hstep
  intro evs s2
  exact key evs _ s2 (getElem?_set_of_getElem? hw)


theorem idle_worker_returns_witness :
    (TaskManager (mainHeap 100) 2).workers[0]? = some WorkerState.loopHead ∧
    (TaskManager (mainHeap 100) 2).stop = false ∧
    (TaskManager (mainHeap 100) 2).tasks = [] ∧
    ∃ s1, workerIteration (TaskManager (mainHeap 100) 2) 0 100 = Except.ok s1 ∧
      s1.workers[0]? = some WorkerState.returned ∧ s1.stop = false ∧
      ∀ (evs : List Event) (s2 : Sched), run s1 evs = Except.ok s2 →
        s2.workers[0]? = some WorkerState.returned :=
  ⟨rfl, rfl, rfl, idle_worker_returns (TaskManager (mainHeap 100) 2) 0 100 rfl rfl rfl⟩

/-- C3. A pass of a worker that starts at the loop head and ends in a state (normally, or in
`std::terminate` because the action threw) either invoked no action and removed nothing, or
invoked exactly the action of the entry `top()` returned, and that entry has a key `≤ now`.
When the earliest entry has a key `> now`, the pass yields a next state with the ready set,
the heap and the record of executed entries unchanged. -/
theorem no_execution_before_due (s : Sched) (w : Nat) (now : Int)
    (hw : s.workers[w]? = some WorkerState.loopHead) :
    (∀ s1, endState (workerIteration s w now) = some s1 →
      (s1.log = s.log ∧ s1.tasks = s.tasks) ∨
      (∃ item, pqTop s.tasks = some item ∧ item.1 ≤ now ∧ s1.log = s.log ++ [item])) ∧
    (∀ item, pqTop s.tasks = some item → item.1 > now →
      ∃ s1, workerIteration s w now = Except.ok s1 ∧
        s1.tasks = s.tasks ∧ s1.log = s.log ∧ s1.heap = s.heap) := by
  constructor
  · intro s1 h
    by_cases hr : s.tasks = [] ∨ s.stop = true
    · rw [workerIteration_return s w now hw hr] at h
      simp only [endState, Option.some.injEq] at h
      subst h
      exact Or.inl ⟨rfl, rfl⟩
    · have hne : s.tasks ≠ [] := fun hc => hr (Or.inl hc)
      have hs : s.stop = false := by
        cases hst : s.stop with
        | false => rfl
        | true => exact absurd (Or.inr hst) hr
      cases ht : pqTop s.tasks with
      | none => exact absurd (pqTop_eq_none.mp ht) hne
      | some item =>
        by_cases hn : item.1 > now
        · rw [workerIteration_wait s w now item hw hs ht hn] at h
          simp only [endState, Option.some.injEq] at h
          subst h
          exact Or.inl ⟨rfl, rfl⟩
        · have hle : item.1 ≤ now := by omega
          rw [workerIteration_due s w now item hw hs ht hle] at h
          have hlog := workerExecute_endState_log h
          exact Or.inr ⟨item, rfl, hle, hlog⟩
  · intro item ht hn
    by_cases hst : s.stop = true
    · exact ⟨_, workerIteration_return s w now hw (Or.inr hst), rfl, rfl, rfl⟩
    · have hs : s.stop = false := by
        cases hb : s.stop with
        | false => rfl
        | true => exact absurd hb hst
      exact ⟨s, workerIteration_wait s w now item hw hs ht hn, rfl, rfl, rfl⟩

theorem no_execution_before_due_witness :
    (mainQueued 100).workers[0]? = some WorkerState.loopHead ∧
    ((∀ s1, endState (workerIteration (mainQueued 100) 0 100) = some s1 →
      (s1.log = (mainQueued 100).log ∧ s1.tasks = (mainQueued 100).tasks) ∨
      (∃ item, pqTop (mainQueued 100).tasks = some item ∧ item.1 ≤ 100 ∧
        s1.log = (mainQueued 100).log ++ [item])) ∧
    (∀ item, pqTop (mainQueued 100).tasks = some item → item.1 > 100 →
      ∃ s1, workerIteration (mainQueued 100) 0 100 = Except.ok s1 ∧
        s1.tasks = (mainQueued 100).tasks ∧ s1.log = (mainQueued 100).log ∧
        s1.heap = (mainQueued 100).heap)) :=
  ⟨rfl, no_execution_before_due (mainQueued 100) 0 100 rfl⟩

/-- C5, the claim fails.  On the stopped scheduler of `main`, `AddTask(task1)` yields a next
state (it reports nothing) and the ready set has grown by the entry of `task1`. -/
theorem addTask_after_stop_enqueues :
    (stopScheduler (mainStart 100)).stop = true ∧
    (stopScheduler (mainStart 100)).tasks = [] ∧
    ∃ s1, AddTask (stopScheduler (mainStart 100)) 0 = Except.ok s1 ∧ s1.tasks = [(100, 0)] :=
  ⟨rfl, rfl, _, rfl, rfl⟩

/-- C5 as amended.  With the stop flag set, `AddTask(task)` on a live task reports nothing
and pushes the entry `(task->getExecutionTime(), task)`; the stop flag stays set, so a pass
of a worker that starts at the loop head afterwards returns from `worker` with the new entry
still queued and no action invoked. -/
theorem addTask_after_stop (s : Sched) (task : Nat) (t : Task)
    (hs : s.stop = true) (hp : s.heap task = some t) :
    ∃ s1, AddTask s task = Except.ok s1 ∧
      s1.tasks = pqPush s.tasks (t.getExecutionTime, task) ∧
      s1.stop = true ∧ s1.heap = s.heap ∧ s1.log = s.log ∧ s1.workers = s.workers ∧
      ∀ w now, s1.workers[w]? = some WorkerState.loopHead →
        ∃ s2, workerIteration s1 w now = Except.ok s2 ∧
          s2.workers[w]? = some WorkerState.returned ∧
          s2.tasks = s1.tasks ∧ s2.log = s1.log := by
  refine ⟨{ s with tasks := pqPush s.tasks (t.getExecutionTime, task) }, ?_, rfl, hs, rfl, rfl,
    rfl, ?_⟩
  · simp [AddTask, hp]
  · intro w now hw
    exact ⟨_, workerIteration_return _ w now hw (Or.inr hs), getElem?_set_of_getElem? hw,
      rfl, rfl⟩

theorem addTask_after_stop_witness :
    (stopScheduler (mainStart 100)).stop = true ∧
    (stopScheduler (mainStart 100)).heap 0 = some (Task.OneTimeTask 100 Action.returns) ∧
    ∃ s1, AddTask (stopScheduler (mainStart 100)) 0 = Except.ok s1 ∧
      s1.tasks = pqPush (stopScheduler (mainStart 100)).tasks
        ((Task.OneTimeTask 100 Action.returns).getExecutionTime, 0) ∧
      s1.stop = true ∧ s1.heap = (stopScheduler (mainStart 100)).heap ∧
      s1.log = (stopScheduler (mainStart 100)).log ∧
      s1.workers = (stopScheduler (mainStart 100)).workers ∧
      ∀ w now, s1.workers[w]? = some WorkerState.loopHead →
        ∃ s2, workerIteration s1 w now = Except.ok s2 ∧
          s2.workers[w]? = some WorkerState.returned ∧
          s2.tasks = s1.tasks ∧ s2.log = s1.log :=
  ⟨rfl, rfl, addTask_after_stop (stopScheduler (mainStart 100)) 0
    (Task.OneTimeTask 100 Action.returns) rfl rfl⟩


/-- C7, the claim fails.  One thread, one due Recurring task (due at 100, period 2).  When
its action throws, the pass ends in `std::terminate` with the thread gone, the ready set
empty and the task still carrying execution time 100; when its action returns, the pass
yields a next state whose ready set holds the task again, keyed 102. -/
theorem throwing_action_not_rescheduled :
    (∃ s1, workerIteration (oneRecurring Action.throws) 0 100
        = Except.error (Fault.terminateCalled s1) ∧
      s1.tasks = [] ∧ s1.workers = [WorkerState.terminated] ∧
      s1.heap 0 = some (Task.RecurringTask 100 2 Action.throws)) ∧
    (∃ s2, workerIteration (oneRecurring Action.returns) 0 100 = Except.ok s2 ∧
      s2.tasks = [(102, 0)] ∧ s2.workers = [WorkerState.loopHead]) :=
  ⟨⟨_, rfl, rfl, rfl, rfl⟩, ⟨_, rfl, rfl, rfl⟩⟩

/-- C7 as amended.  For a due Recurring task at the head of the ready set whose action
throws, nothing catches the exception: the pass ends in `std::terminate`, the thread does
not go on, the entry has been popped and is not pushed again, and the task keeps its
execution time.  Had the action returned, the pass would have yielded a next state whose
ready set is that popped ready set with the entry `(e + frequency, task)` pushed. -/
theorem throwing_action_terminates (s : Sched) (w : Nat) (now : Int) (item : PII) (e f : Int)
    (hw : s.workers[w]? = some WorkerState.loopHead) (hs : s.stop = false)
    (ht : pqTop s.tasks = some item) (hn : item.1 ≤ now)
    (hp : s.heap item.2 = some (Task.RecurringTask e f Action.throws)) :
    ∃ s1, workerIteration s w now = Except.error (Fault.terminateCalled s1) ∧
      s1.workers[w]? = some WorkerState.terminated ∧
      s1.tasks = pqPop s.tasks ∧ s1.heap = s.heap ∧ s1.log = s.log ++ [item] ∧
      ∃ s2, workerIteration
          { s with
            heap := Function.update s.heap item.2
              (some (Task.RecurringTask e f Action.returns)) } w now = Except.ok s2 ∧
        s2.tasks = pqPush s1.tasks (wrapLong (e + f), item.2) := by
  refine ⟨setWorker
    { setWorker { s with tasks := pqPop s.tasks } w (WorkerState.running item) with
      log := s.log ++ [item] } w WorkerState.terminated, ?_, ?_, rfl, rfl, rfl, ?_⟩
  · rw [workerIteration_due s w now item hw hs ht hn]
    exact workerExecute_throws _ w item _ hp rfl
  · simp only [setWorker_workers, List.set_set]
    exact getElem?_set_of_getElem? hw
  · have hd := workerIteration_due
      { s with
        heap := Function.update s.heap item.2
          (some (Task.RecurringTask e f Action.returns)) } w now item hw hs ht hn
    rw [workerExecute_recurring _ w item e f (by simp)] at hd
    exact ⟨_, hd, rfl⟩

theorem throwing_action_terminates_witness :
    (oneRecurring Action.throws).workers[0]? = some WorkerState.loopHead ∧
    (oneRecurring Action.throws).stop = false ∧
    pqTop (oneRecurring Action.throws).tasks = some (100, 0) ∧
    ∃ s1, workerIteration (oneRecurring Action.throws) 0 100
        = Except.error (Fault.terminateCalled s1) ∧
      s1.workers[0]? = some WorkerState.terminated ∧
      s1.tasks = pqPop (oneRecurring Action.throws).tasks ∧
      s1.heap = (oneRecurring Action.throws).heap ∧
      s1.log = (oneRecurring Action.throws).log ++ [(100, 0)] ∧
      ∃ s2, workerIteration
          { oneRecurring Action.throws with
            heap := Function.update (oneRecurring Action.throws).heap 0
              (some (Task.RecurringTask 100 2 Action.returns)) } 0 100 = Except.ok s2 ∧
        s2.tasks = pqPush s1.tasks (wrapLong (100 + 2), 0) :=
  ⟨rfl, rfl, rfl,
    throwing_action_terminates (oneRecurring Action.throws) 0 100 (100, 0) 100 2 rfl rfl rfl
      (by decide) rfl⟩


/-! ## Steps, case by case -/

theorem held_set {ws : List WorkerState} {w : Nat} {a : WorkerState} (b : WorkerState)
    (h : ws[w]? = some a) :
    List.Perm (holding a ++ held (ws.set w b)) (holding b ++ held ws) := by
  induction ws generalizing w with
  | nil => simp at h
  | cons x xs ih =>
    cases w with
    | zero =>
      simp only [List.getElem?_cons_zero, Option.some.injEq] at h
      subst h
      simp only [List.set_cons_zero, held]
      exact List.perm_append_comm_assoc _ _ _
    | succ n =>
      simp only [List.getElem?_cons_succ] at h
      simp only [List.set_cons_succ, held]
      have h1 := ih h
      exact ((List.perm_append_comm_assoc _ _ _).trans (List.Perm.append_left _ h1)).trans
        (List.perm_append_comm_assoc _ _ _)

theorem step_kind {s s1 : Sched} {ev : Event} (h : step s ev = Except.ok s1) :
    StepKind s s1 ev := by
  cases ev with
  | addTask task =>
    simp only [step, AddTask] at h
    cases hp : s.heap task with
    | none => simp [hp] at h
    | some t =>
      simp only [hp, Except.ok.injEq] at h
      exact StepKind.add task t rfl hp h.symm
  | stopScheduler =>
    simp only [step, Except.ok.injEq] at h
    subst h
    exact StepKind.quiet rfl rfl rfl rfl (List.Perm.refl _)
  | work w now =>
    simp only [step] at h
    cases hs : s.workers[w]? with
    | none =>
      simp only [hs, Except.ok.injEq] at h
      subst h
      exact StepKind.quiet rfl rfl rfl rfl (List.Perm.refl _)
    | some st =>
      cases st with
      | loopHead =>
        simp only [hs, Except.ok.injEq] at h
        subst h
        have h1 := held_set WorkerState.returned hs
        have h2 := held_set WorkerState.acquiring hs
        simp only [holding, List.nil_append] at h1 h2
        unfold workerCheck
        split
        · exact StepKind.quiet rfl rfl rfl rfl h1
        · exact StepKind.quiet rfl rfl rfl rfl h2
      | acquiring =>
        simp only [hs, Except.ok.injEq] at h
        subst h
        unfold workerLocked
        cases ht : pqTop s.tasks with
        | none => exact StepKind.quiet rfl rfl rfl rfl (List.Perm.refl _)
        | some item =>
          by_cases hn : item.1 > now
          · have h1 := held_set WorkerState.loopHead hs
            simp only [holding, List.nil_append] at h1
            simp only [hn, if_true]
            exact StepKind.quiet rfl rfl rfl rfl h1
          · have h1 := held_set (WorkerState.running item) hs
            simp only [holding, List.nil_append, List.singleton_append] at h1
            simp only [hn, if_false]
            exact StepKind.pop w now item rfl hs ht (by omega) rfl rfl rfl h1
      | running item =>
        simp only [hs] at h
        have h1 := held_set WorkerState.loopHead hs
        simp only [holding, List.nil_append, List.singleton_append] at h1
        rcases workerExecute_ok_inv h with ⟨e, f, hp, rfl⟩ | ⟨e, hp, rfl⟩
        · exact StepKind.recur w now item e f rfl hs hp rfl rfl rfl h1
        · exact StepKind.once w now item e rfl hs hp rfl rfl rfl h1
      | returned =>
        simp only [hs, Except.ok.injEq] at h
        subst h
        exact StepKind.quiet rfl rfl rfl rfl (List.Perm.refl _)
      | terminated =>
        simp only [hs, Except.ok.injEq] at h
        subst h
        exact StepKind.quiet rfl rfl rfl rfl (List.Perm.refl _)


/-! ## Runs -/

theorem run_induct (P : Sched → List Event → Prop)
    (hstep : ∀ s ev rest s1, P s (ev :: rest) → step s ev = Except.ok s1 → P s1 rest) :
    ∀ (pre rest : List Event) (s s1 : Sched),
      P s (pre ++ rest) → run s pre = Except.ok s1 → P s1 rest := by
  intro pre
  induction pre with
  | nil =>
    intro rest s s1 hP hr
    simp only [run, Except.ok.injEq] at hr
    subst hr
    exact hP
  | cons ev pre ih =>
    intro rest s s1 hP hr
    simp only [run] at hr
    cases hs : step s ev with
    | error f => rw [hs] at hr; cases hr
    | ok s2 =>
      rw [hs] at hr
      exact ih rest s2 s1 (hstep s ev (pre ++ rest) s2 hP hs) hr

theorem occ_nil (p : Nat) : occ p [] = 0 := rfl

theorem occ_cons (p q : Nat) (l : List Nat) :
    occ p (q :: l) = occ p l + if q = p then 1 else 0 := by
  simp [occ, List.countP_cons]

theorem occ_append (p : Nat) (l1 l2 : List Nat) : occ p (l1 ++ l2) = occ p l1 + occ p l2 := by
  simp [occ, List.countP_append]

theorem occ_perm {l1 l2 : List Nat} (h : List.Perm l1 l2) (p : Nat) : occ p l1 = occ p l2 :=
  List.Perm.countP_eq _ h

theorem occ_pos_of_mem {p : Nat} {l : List Nat} (h : p ∈ l) : 1 ≤ occ p l := by
  induction l with
  | nil => simp at h
  | cons q qs ih =>
    rw [occ_cons]
    rcases List.mem_cons.mp h with rfl | hm
    · simp
    · have := ih hm
      omega

theorem mem_of_occ_pos {p : Nat} {l : List Nat} (h : 1 ≤ occ p l) : p ∈ l := by
  induction l with
  | nil => simp [occ_nil] at h
  | cons q qs ih =>
    rw [occ_cons] at h
    by_cases c : q = p
    · simp [c]
    · simp only [c, if_false, add_zero] at h
      exact List.mem_cons_of_mem _ (ih h)

theorem occ_owned (s : Sched) (p : Nat) :
    occ p (owned s) = occ p (s.tasks.map Prod.snd) + occ p (held s.workers) := by
  simp [owned, occ_append]

theorem occ_pqPush (p : Nat) (q : List PII) (x : PII) :
    occ p ((pqPush q x).map Prod.snd) = occ p (q.map Prod.snd) + if x.2 = p then 1 else 0 := by
  simp [pqPush, occ_append, occ_cons, occ_nil]

theorem occ_pqPop (p : Nat) {q : List PII} {x : PII} (h : pqTop q = some x) :
    occ p (q.map Prod.snd) = occ p ((pqPop q).map Prod.snd) + if x.2 = p then 1 else 0 := by
  have hp := List.Perm.map Prod.snd (pqPop_perm h)
  rw [← occ_perm hp p]
  simp [occ_cons]

theorem submits_cons (ev : Event) (rest : List Event) :
    submits (ev :: rest) = submits [ev] ++ submits rest := by
  cases ev <;> simp [submits]

theorem ownedOnce_step {s s1 : Sched} {ev : Event} {rest : List Event}
    (hinv : OwnedOnce s (ev :: rest)) (h : step s ev = Except.ok s1) : OwnedOnce s1 rest := by
  intro p
  have hp := hinv p
  rw [submits_cons, occ_append, occ_owned] at hp
  rw [occ_owned]
  cases step_kind h with
  | add task t hev hheap hs1 =>
    subst hev
    subst hs1
    simp only [submits, occ_cons, occ_nil] at hp
    simp only [occ_pqPush]
    omega
  | quiet hev hheap htasks hlog hheld =>
    rw [hev, occ_nil] at hp
    rw [htasks, occ_perm hheld]
    omega
  | pop w now item hev hw htop hdue hheap htasks hlog hheld =>
    subst hev
    simp only [submits, occ_nil] at hp
    rw [htasks, occ_perm hheld, occ_cons]
    rw [occ_pqPop p htop] at hp
    omega
  | recur w now item e f hev hw hobj hheap htasks hlog hheld =>
    subst hev
    simp only [submits, occ_nil] at hp
    rw [← occ_perm hheld, occ_cons] at hp
    rw [htasks, occ_pqPush]
    simp only
    omega
  | once w now item e hev hw hobj hheap htasks hlog hheld =>
    subst hev
    simp only [submits, occ_nil] at hp
    rw [← occ_perm hheld, occ_cons] at hp
    rw [htasks]
    omega

theorem keysAgree_step {s s1 : Sched} {ev : Event} {rest : List Event}
    (hown : OwnedOnce s (ev :: rest)) (hkeys : KeysAgree s) (h : step s ev = Except.ok s1) :
    KeysAgree s1 := by
  have held_not_queued : ∀ (item : PII) (l : List Nat),
      List.Perm (item.2 :: l) (held s.workers) → ∀ k p, (k, p) ∈ s.tasks → p ≠ item.2 := by
    intro item l hperm k p hmem hpe
    have h1 := hown p
    rw [occ_owned, ← occ_perm hperm, occ_cons] at h1
    have h2 : 1 ≤ occ p (s.tasks.map Prod.snd) :=
      occ_pos_of_mem (List.mem_map.mpr ⟨(k, p), hmem, rfl⟩)
    simp only [hpe, if_true] at h1
    rw [hpe] at h2
    omega
  intro k p hmem
  cases step_kind h with
  | add task t hev hheap hs1 =>
    subst hs1
    simp only [pqPush, List.mem_append, List.mem_singleton, Prod.mk.injEq] at hmem
    rcases hmem with hm | ⟨rfl, rfl⟩
    · exact hkeys k p hm
    · exact ⟨t, hheap, rfl⟩
  | quiet hev hheap htasks hlog hheld =>
    rw [htasks] at hmem
    rw [hheap]
    exact hkeys k p hmem
  | pop w now item hev hw htop hdue hheap htasks hlog hheld =>
    rw [htasks] at hmem
    rw [hheap]
    exact hkeys k p ((pqPop_perm htop).subset (List.mem_cons_of_mem _ hmem))
  | recur w now item e f hev hw hobj hheap htasks hlog hheld =>
    rw [htasks] at hmem
    simp only [pqPush, List.mem_append, List.mem_singleton, Prod.mk.injEq] at hmem
    rw [hheap]
    rcases hmem with hm | ⟨rfl, rfl⟩
    · have hne := held_not_queued item _ hheld k p hm
      rw [Function.update_noteq hne]
      exact hkeys k p hm
    · exact ⟨_, Function.update_same _ _ _, rfl⟩
  | once w now item e hev hw hobj hheap htasks hlog hheld =>
    rw [htasks] at hmem
    rw [hheap]
    have hne := held_not_queued item _ hheld k p hmem
    rw [Function.update_noteq hne]
    exact hkeys k p hmem



/-! ## The key of an entry and the execution time of its task -/

theorem held_replicate (n : Nat) : held (List.replicate n WorkerState.loopHead) = [] := by
  induction n with
  | zero => rfl
  | succ n ih => simp [List.replicate_succ, held, holding, ih]

theorem occ_le_one_of_nodup {l : List Nat} (h : l.Nodup) (p : Nat) : occ p l ≤ 1 := by
  induction l with
  | nil => simp [occ_nil]
  | cons q qs ih =>
    rw [occ_cons]
    have hq := List.nodup_cons.mp h
    have h1 := ih hq.2
    by_cases c : q = p
    · subst c
      have h0 : occ q qs = 0 := by
        by_contra hne
        exact hq.1 (mem_of_occ_pos (by omega))
      simp [h0]
    · simp only [c, if_false]
      omega

theorem mem_held {ws : List WorkerState} {w : Nat} {item : PII}
    (h : ws[w]? = some (WorkerState.running item)) : item.2 ∈ held ws := by
  induction ws generalizing w with
  | nil => simp at h
  | cons x xs ih =>
    cases w with
    | zero =>
      simp only [List.getElem?_cons_zero, Option.some.injEq] at h
      subst h
      simp [held, holding]
    | succ n =>
      simp only [List.getElem?_cons_succ] at h
      simp only [held, List.mem_append]
      exact Or.inr (ih h)

theorem ownedOnce_start (heap : Nat → Option Task) (n : Nat) (evs : List Event)
    (h : ∀ p, occ p (submits evs) ≤ 1) : OwnedOnce (TaskManager heap n) evs := by
  intro p
  have : occ p (owned (TaskManager heap n)) = 0 := by
    simp [owned, TaskManager, held_replicate, occ_nil]
  have := h p
  omega

/-- C10, the claim fails.  One thread and one Recurring task (due at 100, period 2) passed to
`AddTask` twice: after the thread has executed it once, the ready set holds the entries
`(100, task)` and `(102, task)` while the task carries execution time 102, so the first
entry is keyed by a time that is not the execution time of its task. -/
theorem double_submission_breaks_keys :
    ∃ s, run (TaskManager (oneRecurring Action.returns).heap 1)
        [Event.addTask 0, Event.addTask 0, Event.work 0 100, Event.work 0 100,
          Event.work 0 100] = Except.ok s ∧
      s.tasks = [(100, 0), (102, 0)] ∧
      s.heap 0 = some (Task.RecurringTask 102 2 Action.returns) ∧
      ¬ (∀ k p, (k, p) ∈ s.tasks → ∃ t, s.heap p = some t ∧ t.getExecutionTime = k) := by
  refine ⟨_, rfl, rfl, rfl, ?_⟩
  intro hall
  obtain ⟨t, ht, hk⟩ := hall 100 0 (List.mem_cons_self _ _)
  have h0 : t = Task.RecurringTask 102 2 Action.returns := by
    have : some t = some (Task.RecurringTask 102 2 Action.returns) := ht.symm.trans rfl
    exact Option.some.inj this
  rw [h0] at hk
  simp [Task.getExecutionTime] at hk

/-- C10 as amended.  In every state reached from the empty scheduler by `AddTask` calls,
moves of the worker threads and `stopScheduler` calls in which no address is passed to
`AddTask` twice, every entry `(k, task)` of the ready set has `k = task->getExecutionTime()`
on a live task, and a task held by a thread (popped, its execution time about to change)
is not in the ready set. -/
theorem ready_set_keys_agree (heap : Nat → Option Task) (n : Nat) (evs : List Event)
    (s : Sched) (hsub : (submits evs).Nodup)
    (hrun : run (TaskManager heap n) evs = Except.ok s) :
    (∀ k p, (k, p) ∈ s.tasks → ∃ t, s.heap p = some t ∧ t.getExecutionTime = k) ∧
    (∀ (w : Nat) (item : PII), s.workers[w]? = some (WorkerState.running item) →
      item.2 ∉ s.tasks.map Prod.snd) := by
  have hinv := run_induct (fun s rest => KeysAgree s ∧ OwnedOnce s rest)
    (fun s ev rest s1 hP hs => ⟨keysAgree_step hP.2 hP.1 hs, ownedOnce_step hP.2 hs⟩)
    evs [] (TaskManager heap n) s
    (by
      rw [List.append_nil]
      refine ⟨?_, ownedOnce_start heap n evs (occ_le_one_of_nodup hsub)⟩
      intro k p hmem
      simp [TaskManager] at hmem)
    hrun
  refine ⟨hinv.1, ?_⟩
  intro w item hw hmem
  have h1 := hinv.2 item.2
  rw [occ_owned] at h1
  have h2 := occ_pos_of_mem (mem_held hw)
  have h3 := occ_pos_of_mem hmem
  omega

theorem ready_set_keys_agree_witness :
    (submits (mainSubmits ++ [Event.work 0 100, Event.work 0 100])).Nodup ∧
    run (TaskManager (mainHeap 100) 2) (mainSubmits ++ [Event.work 0 100, Event.work 0 100])
      = Except.ok (setWorker { mainQueued 100 with tasks := [(101, 1), (105, 2)] } 0
          (WorkerState.running (100, 0))) ∧
    ((∀ k p, (k, p) ∈ (setWorker { mainQueued 100 with tasks := [(101, 1), (105, 2)] } 0
          (WorkerState.running (100, 0))).tasks →
        ∃ t, (setWorker { mainQueued 100 with tasks := [(101, 1), (105, 2)] } 0
          (WorkerState.running (100, 0))).heap p = some t ∧ t.getExecutionTime = k) ∧
    (∀ (w : Nat) (item : PII), (setWorker { mainQueued 100 with tasks := [(101, 1), (105, 2)] } 0
          (WorkerState.running (100, 0))).workers[w]? = some (WorkerState.running item) →
      item.2 ∉ (setWorker { mainQueued 100 with tasks := [(101, 1), (105, 2)] } 0
          (WorkerState.running (100, 0))).tasks.map Prod.snd)) :=
  ⟨by decide, rfl,
    ready_set_keys_agree (mainHeap 100) 2 (mainSubmits ++ [Event.work 0 100, Event.work 0 100])
      _ (by decide) rfl⟩


/-! ## A OneTime task is executed at most once -/

theorem executions_of_log_eq {s s1 : Sched} (h : s1.log = s.log) (p : Nat) :
    executions s1 p = executions s p := by
  simp [executions, h]

theorem executions_of_log_append {s s1 : Sched} {item : PII} (h : s1.log = s.log ++ [item])
    (p : Nat) : executions s1 p = executions s p + if item.2 = p then 1 else 0 := by
  simp [executions, h, List.countP_append, List.countP_cons]

/-- The step that ends in `std::terminate` is the execution of a held task whose action
throws. -/
theorem step_terminate_inv {s s1 : Sched} {ev : Event}
    (h : step s ev = Except.error (Fault.terminateCalled s1)) :
    ∃ w now item, ev = Event.work w now ∧ s.workers[w]? = some (WorkerState.running item) ∧
      s1 = setWorker { s with log := s.log ++ [item] } w WorkerState.terminated := by
  cases ev with
  | addTask task =>
    simp only [step, AddTask] at h
    cases hp : s.heap task with
    | none => simp [hp] at h
    | some t => simp [hp] at h
  | stopScheduler => simp [step] at h
  | work w now =>
    simp only [step] at h
    cases hs : s.workers[w]? with
    | none => simp [hs] at h
    | some st =>
      cases st with
      | loopHead => simp [hs] at h
      | acquiring => simp [hs] at h
      | returned => simp [hs] at h
      | terminated => simp [hs] at h
      | running item =>
        simp only [hs] at h
        refine ⟨w, now, item, rfl, hs, ?_⟩
        cases hp : s.heap item.2 with
        | none => simp [workerExecute, hp] at h
        | some t =>
          cases ha : t.action with
          | throws =>
            rw [workerExecute_throws s w item t hp ha] at h
            simp only [Except.error.injEq, Fault.terminateCalled.injEq] at h
            exact h.symm
          | returns =>
            exfalso
            unfold workerExecute at h
            simp only [hp, ha] at h
            split at h
            · simp only [AddTask, Function.update_same] at h
              cases h
            · cases h

/-- A run that ends in a state either yields it, or yields a state from which the next
event ends in `std::terminate`. -/
theorem run_endState {evs : List Event} {s s1 : Sched} (h : endState (run s evs) = some s1) :
    run s evs = Except.ok s1 ∨
    ∃ pre ev post s0, evs = pre ++ ev :: post ∧ run s pre = Except.ok s0 ∧
      step s0 ev = Except.error (Fault.terminateCalled s1) := by
  induction evs generalizing s with
  | nil =>
    left
    simp only [run, endState, Option.some.injEq] at h
    rw [h]
    rfl
  | cons ev rest ih =>
    simp only [run] at h
    cases hs : step s ev with
    | error f =>
      rw [hs] at h
      cases f with
      | undefinedBehaviour => simp [endState] at h
      | terminateCalled final =>
        simp only [endState, Option.some.injEq] at h
        subst h
        exact Or.inr ⟨[], ev, rest, s, rfl, rfl, hs⟩
    | ok s2 =>
      rw [hs] at h
      rcases ih h with hok | ⟨pre, ev1, post, s0, hev, hpre, hlast⟩
      · left
        simp only [run, hs]
        exact hok
      · right
        refine ⟨ev :: pre, ev1, post, s0, by simp [hev], ?_, hlast⟩
        simp only [run, hs]
        exact hpre

theorem onceOnly_step {p : Nat} {s s1 : Sched} {ev : Event} {rest : List Event}
    (hinv : OnceOnly p s (ev :: rest)) (h : step s ev = Except.ok s1) : OnceOnly p s1 rest := by
  obtain ⟨hnr, hp⟩ := hinv
  rw [submits_cons, occ_append, occ_owned] at hp
  unfold OnceOnly
  rw [occ_owned]
  cases step_kind h with
  | add task t hev hheap hs1 =>
    subst hev
    subst hs1
    simp only [submits, occ_cons, occ_nil] at hp
    simp only [occ_pqPush]
    refine ⟨hnr, ?_⟩
    have : executions { s with tasks := pqPush s.tasks (t.getExecutionTime, task) } p
        = executions s p := rfl
    rw [this]
    omega
  | quiet hev hheap htasks hlog hheld =>
    rw [hev, occ_nil] at hp
    rw [htasks, occ_perm hheld, executions_of_log_eq hlog, hheap]
    exact ⟨hnr, by omega⟩
  | pop w now item hev hw htop hdue hheap htasks hlog hheld =>
    subst hev
    simp only [submits, occ_nil] at hp
    rw [htasks, occ_perm hheld, occ_cons, executions_of_log_eq hlog, hheap]
    rw [occ_pqPop p htop] at hp
    exact ⟨hnr, by omega⟩
  | recur w now item e f hev hw hobj hheap htasks hlog hheld =>
    subst hev
    have hne : item.2 ≠ p := by
      intro hc
      rw [hc] at hobj
      exact hnr _ _ _ hobj
    simp only [submits, occ_nil] at hp
    rw [← occ_perm hheld, occ_cons] at hp
    rw [htasks, occ_pqPush, executions_of_log_append hlog, hheap,
      Function.update_noteq (Ne.symm hne)]
    simp only [hne, if_false] at hp ⊢
    exact ⟨hnr, by omega⟩
  | once w now item e hev hw hobj hheap htasks hlog hheld =>
    subst hev
    simp only [submits, occ_nil] at hp
    rw [← occ_perm hheld, occ_cons] at hp
    rw [htasks, executions_of_log_append hlog, hheap]
    constructor
    · intro e1 f1 a1 hc
      by_cases hpe : p = item.2
      · rw [hpe, Function.update_same] at hc
        cases hc
      · rw [Function.update_noteq hpe] at hc
        exact hnr _ _ _ hc
    · omega


theorem onceOnly_start (heap : Nat → Option Task) (n : Nat) (evs : List Event) (p : Nat)
    (e : Int) (a : Action) (hp : heap p = some (Task.OneTimeTask e a))
    (hsub : occ p (submits evs) ≤ 1) : OnceOnly p (TaskManager heap n) evs := by
  constructor
  · intro e1 f1 a1 hc
    have : heap p = some (Task.RecurringTask e1 f1 a1) := hc
    rw [hp] at this
    cases this
  · have h1 : occ p (owned (TaskManager heap n)) = 0 := by
      simp [owned, TaskManager, held_replicate, occ_nil]
    have h2 : executions (TaskManager heap n) p = 0 := by
      simp [executions, TaskManager]
    omega

/-- C9. Take any run from the empty scheduler (`AddTask` calls, moves of any number of
worker threads at any clock readings, `stopScheduler` calls) that ends in a state, normally
or in `std::terminate`, and a OneTime task passed to `AddTask` at most once in it.  Then the
number of places where the scheduler owns the task (entries of the ready set, threads
holding it) plus the number of invocations of its action is at most one: the action is
invoked at most once, and once it has been, the task is neither queued nor held.  The pass
of a worker that executes a due OneTime task leaves the ready set with that entry popped,
one entry shorter, and nothing pushed. -/
theorem oneTime_executed_at_most_once (heap : Nat → Option Task) (n : Nat)
    (evs : List Event) (s : Sched) (p : Nat) (e : Int) (a : Action)
    (hp : heap p = some (Task.OneTimeTask e a)) (hsub : occ p (submits evs) ≤ 1)
    (hrun : endState (run (TaskManager heap n) evs) = some s) :
    executions s p ≤ 1 ∧
    occ p (owned s) + executions s p ≤ 1 ∧
    (∀ (s0 : Sched) (w : Nat) (now : Int) (item : PII) (e0 : Int) (a0 : Action),
      s0.workers[w]? = some WorkerState.loopHead → s0.stop = false →
      pqTop s0.tasks = some item → item.1 ≤ now →
      s0.heap item.2 = some (Task.OneTimeTask e0 a0) →
      ∃ s1, endState (workerIteration s0 w now) = some s1 ∧
        s1.tasks = pqPop s0.tasks ∧ s1.tasks.length + 1 = s0.tasks.length ∧
        s1.log = s0.log ++ [item]) := by
  have hstart := onceOnly_start heap n evs p e a hp hsub
  have hstep : ∀ s ev rest s1, OnceOnly p s (ev :: rest) → step s ev = Except.ok s1 →
      OnceOnly p s1 rest := fun s ev rest s1 hP hs => onceOnly_step hP hs
  have hsum : occ p (owned s) + executions s p ≤ 1 := by
    rcases run_endState hrun with hok | ⟨pre, ev, post, s0, hev, hpre, hlast⟩
    · have hinv := run_induct (OnceOnly p) hstep evs [] (TaskManager heap n) s
        (by rw [List.append_nil]; exact hstart) hok
      have := hinv.2
      omega
    · have hinv := run_induct (OnceOnly p) hstep pre (ev :: post) (TaskManager heap n) s0
        (by rw [← hev]; exact hstart) hpre
      obtain ⟨w, now, item, _, hw, rfl⟩ := step_terminate_inv hlast
      have h1 := hinv.2
      have h2 := held_set WorkerState.terminated hw
      simp only [holding, List.nil_append, List.singleton_append] at h2
      rw [occ_owned, ← occ_perm h2, occ_cons] at h1
      have h3 : executions (setWorker { s0 with log := s0.log ++ [item] } w
          WorkerState.terminated) p = executions s0 p + if item.2 = p then 1 else 0 :=
        executions_of_log_append rfl p
      rw [occ_owned, h3]
      simp only [setWorker_tasks, setWorker_workers]
      omega
  refine ⟨by omega, hsum, ?_⟩
  intro s0 w now item e0 a0 hw hs ht hn hobj
  rw [workerIteration_due s0 w now item hw hs ht hn]
  have hlen := pqPop_length ht
  cases a0 with
  | returns =>
    rw [workerExecute_oneTime
      (setWorker { s0 with tasks := pqPop s0.tasks } w (WorkerState.running item)) w item e0
      hobj]
    exact ⟨_, rfl, rfl, hlen, rfl⟩
  | throws =>
    rw [workerExecute_throws
      (setWorker { s0 with tasks := pqPop s0.tasks } w (WorkerState.running item)) w item _
      hobj rfl]
    exact ⟨_, rfl, rfl, hlen, rfl⟩

theorem oneTime_executed_at_most_once_witness :
    mainHeap 100 0 = some (Task.OneTimeTask 100 Action.returns) ∧
    occ 0 (submits (mainSubmits ++ [Event.work 0 100, Event.work 0 100, Event.work 0 100]))
      ≤ 1 ∧
    endState (run (TaskManager (mainHeap 100) 2)
        (mainSubmits ++ [Event.work 0 100, Event.work 0 100, Event.work 0 100]))
      = some (setWorker
          { mainQueued 100 with
            heap := Function.update (mainHeap 100) 0 none
            tasks := [(101, 1), (105, 2)]
            log := [(100, 0)] } 0 WorkerState.loopHead) ∧
    executions (setWorker
          { mainQueued 100 with
            heap := Function.update (mainHeap 100) 0 none
            tasks := [(101, 1), (105, 2)]
            log := [(100, 0)] } 0 WorkerState.loopHead) 0 ≤ 1 :=
  ⟨rfl, by decide, rfl,
    (oneTime_executed_at_most_once (mainHeap 100) 2
      (mainSubmits ++ [Event.work 0 100, Event.work 0 100, Event.work 0 100]) _ 0 100
      Action.returns rfl (by decide) rfl).1⟩


/-! ## Rescheduling of a Recurring task -/

theorem advance_iterate (t0 P : Int) (k : Nat) (h : ∀ j : Nat, j ≤ k → inLong (t0 + j * P)) :
    (advance P)^[k] t0 = t0 + k * P := by
  induction k with
  | zero => simp
  | succ k ih =>
    rw [Function.iterate_succ_apply', ih (fun j hj => h j (by omega))]
    have hk := h (k + 1) (le_refl _)
    have e1 : t0 + (k : Int) * P + P = t0 + ((k + 1 : Nat) : Int) * P := by
      push_cast
      ring
    unfold advance
    rw [e1]
    exact wrapLong_of_inLong hk

theorem recurring_time_step {p : Nat} {t0 P : Int} {a : Action} {s s1 : Sched} {ev : Event}
    (hinv : s.heap p = some (Task.RecurringTask ((advance P)^[executions s p] t0) P a))
    (h : step s ev = Except.ok s1) :
    s1.heap p = some (Task.RecurringTask ((advance P)^[executions s1 p] t0) P a) := by
  cases step_kind h with
  | add task t hev hheap hs1 =>
    subst hs1
    exact hinv
  | quiet hev hheap htasks hlog hheld =>
    rw [hheap, executions_of_log_eq hlog]
    exact hinv
  | pop w now item hev hw htop hdue hheap htasks hlog hheld =>
    rw [hheap, executions_of_log_eq hlog]
    exact hinv
  | recur w now item e f hev hw hobj hheap htasks hlog hheld =>
    rw [hheap, executions_of_log_append hlog]
    by_cases hpe : item.2 = p
    · subst hpe
      rw [hinv] at hobj
      simp only [Option.some.injEq, Task.RecurringTask.injEq] at hobj
      obtain ⟨he, hf, ha⟩ := hobj
      simp only [if_true, Function.update_same, Function.iterate_succ_apply']
      rw [← he, ← hf, ← ha]
      rfl
    · simp only [hpe, if_false, add_zero]
      rw [Function.update_noteq (Ne.symm hpe)]
      exact hinv
  | once w now item e hev hw hobj hheap htasks hlog hheld =>
    have hpe : item.2 ≠ p := by
      intro hc
      rw [hc, hinv] at hobj
      cases hobj
    rw [hheap, executions_of_log_append hlog, Function.update_noteq (Ne.symm hpe)]
    simp only [hpe, if_false, add_zero]
    exact hinv

/-- C1, the claim fails.  One thread and one Recurring task (execution time 100, period 2)
whose action throws, passed to `AddTask` once.  The thread executes it at clock reading
250: the action is invoked, the run ends in `std::terminate`, and the task has not been
pushed again (the ready set is empty, no entry keyed 102) and still carries execution time
100. -/
theorem recurring_not_reinserted_when_action_throws :
    ∃ s1, endState (run (TaskManager (oneRecurring Action.throws).heap 1)
        [Event.addTask 0, Event.work 0 250, Event.work 0 250, Event.work 0 250]) = some s1 ∧
      s1.log = [(100, 0)] ∧ s1.tasks = [] ∧ (100 + 2, 0) ∉ s1.tasks ∧
      s1.heap 0 = some (Task.RecurringTask 100 2 Action.throws) :=
  ⟨_, rfl, rfl, rfl, by decide, rfl⟩

/-- C1 as amended.  A worker that passes through its loop with a due entry `(e, task)` at
the head of the ready set, `task` being a Recurring task with execution time `e`, frequency
`P` and an action that returns, pushes the task again keyed `e + P` and sets its execution
time to `e + P`, whatever `now ≥ e` the clock reads (`e + P` representable as a `long`).
Consequently, in every state reached from the empty scheduler by a run in which no address
is passed to `AddTask` twice, a Recurring task constructed with execution time `t0` and
frequency `P` that has been executed `k` times carries execution time `t0 + k * P`, and its
entry in the ready set, when it has one, is keyed `t0 + k * P` (the sums up to `k`
representable as a `long`). -/
theorem recurring_rescheduled_when_action_returns (s : Sched) (w : Nat) (now : Int) (p : Nat)
    (e P : Int) (hw : s.workers[w]? = some WorkerState.loopHead) (hs : s.stop = false)
    (ht : pqTop s.tasks = some (e, p)) (hn : e ≤ now)
    (hp : s.heap p = some (Task.RecurringTask e P Action.returns)) (hr : inLong (e + P)) :
    (∃ s1, workerIteration s w now = Except.ok s1 ∧
      s1.heap p = some (Task.RecurringTask (e + P) P Action.returns) ∧
      s1.tasks = pqPush (pqPop s.tasks) (e + P, p) ∧
      s1.log = s.log ++ [(e, p)] ∧ s1.workers[w]? = some WorkerState.loopHead) ∧
    (∀ (heap : Nat → Option Task) (n : Nat) (evs : List Event) (s2 : Sched) (q : Nat)
      (t0 : Int) (a : Action),
      heap q = some (Task.RecurringTask t0 P a) →
      (submits evs).Nodup →
      run (TaskManager heap n) evs = Except.ok s2 →
      (∀ j : Nat, j ≤ executions s2 q → inLong (t0 + j * P)) →
      s2.heap q = some (Task.RecurringTask (t0 + executions s2 q * P) P a) ∧
      ∀ key, (key, q) ∈ s2.tasks → key = t0 + executions s2 q * P) := by
  constructor
  · have hd := workerIteration_due s w now (e, p) hw hs ht hn
    rw [workerExecute_recurring
      (setWorker { s with tasks := pqPop s.tasks } w (WorkerState.running (e, p))) w (e, p) e P
      hp, wrapLong_of_inLong hr] at hd
    refine ⟨_, hd, ?_, rfl, rfl, ?_⟩
    · simp
    · simp only [setWorker_workers, List.set_set]
      exact getElem?_set_of_getElem? hw
  · intro heap n evs s2 q t0 a hq hsub hrun hlong
    have hinv := run_induct
      (fun s rest =>
        s.heap q = some (Task.RecurringTask ((advance P)^[executions s q] t0) P a) ∧
        KeysAgree s ∧ OwnedOnce s rest)
      (fun s ev rest s1 hP hstep =>
        ⟨recurring_time_step hP.1 hstep, keysAgree_step hP.2.2 hP.2.1 hstep,
          ownedOnce_step hP.2.2 hstep⟩)
      evs [] (TaskManager heap n) s2
      (by
        rw [List.append_nil]
        refine ⟨by simpa [TaskManager, executions] using hq, ?_,
          ownedOnce_start heap n evs (occ_le_one_of_nodup hsub)⟩
        intro k r hmem
        simp [TaskManager] at hmem)
      hrun
    beta_reduce at hinv
    obtain ⟨htime, hkeys, _⟩ := hinv
    rw [advance_iterate t0 P _ hlong] at htime
    refine ⟨htime, ?_⟩
    intro key hmem
    obtain ⟨t, hheap, hkey⟩ := hkeys key q hmem
    rw [htime] at hheap
    have ht2 := Option.some.inj hheap
    rw [← ht2] at hkey
    exact hkey.symm

theorem recurring_rescheduled_when_action_returns_witness :
    ((oneRecurring Action.returns).workers[0]? = some WorkerState.loopHead ∧
     (oneRecurring Action.returns).stop = false ∧
     pqTop (oneRecurring Action.returns).tasks = some (100, 0) ∧
     (100 : Int) ≤ 250 ∧
     (oneRecurring Action.returns).heap 0 = some (Task.RecurringTask 100 2 Action.returns) ∧
     inLong (100 + 2)) ∧
    (∃ s1, workerIteration (oneRecurring Action.returns) 0 250 = Except.ok s1 ∧
      s1.heap 0 = some (Task.RecurringTask (100 + 2) 2 Action.returns) ∧
      s1.tasks = pqPush (pqPop (oneRecurring Action.returns).tasks) (100 + 2, 0) ∧
      s1.log = (oneRecurring Action.returns).log ++ [(100, 0)] ∧
      s1.workers[0]? = some WorkerState.loopHead) ∧
    (∃ s2, run (TaskManager (oneRecurring Action.returns).heap 2)
        [Event.addTask 0, Event.work 0 250, Event.work 1 250, Event.work 0 250,
          Event.work 0 251, Event.work 1 251, Event.work 1 251, Event.work 1 300]
        = Except.ok s2 ∧
      executions s2 0 = 2 ∧
      s2.heap 0 = some (Task.RecurringTask (100 + executions s2 0 * 2) 2 Action.returns) ∧
      ∀ key, (key, 0) ∈ s2.tasks → key = 100 + executions s2 0 * 2) :=
  have hthm := recurring_rescheduled_when_action_returns (oneRecurring Action.returns) 0 250 0
    100 2 rfl rfl rfl (by decide) rfl (by decide)
  ⟨⟨rfl, rfl, rfl, by decide, rfl, by decide⟩, hthm.1,
    ⟨_, rfl, by decide,
      hthm.2 (oneRecurring Action.returns).heap 2
        [Event.addTask 0, Event.work 0 250, Event.work 1 250, Event.work 0 250,
          Event.work 0 251, Event.work 1 251, Event.work 1 251, Event.work 1 300]
        _ 0 100 Action.returns rfl (by decide) rfl
        (by
          intro j hj
          have h2 : j ≤ 2 := hj
          have : j = 0 ∨ j = 1 ∨ j = 2 := by omega
          rcases this with rfl | rfl | rfl <;> decide)⟩⟩

/-! ## Removal in time order -/

theorem run_addTasks (ps : List Nat) (s : Sched) (h : ∀ p ∈ ps, ∃ t, s.heap p = some t) :
    run s (ps.map Event.addTask) =
      Except.ok { s with tasks := s.tasks ++ ps.map (entryOf s.heap) } := by
  induction ps generalizing s with
  | nil => simp [run]
  | cons p ps ih =>
    obtain ⟨t, ht⟩ := h p (List.mem_cons_self _ _)
    have hstep : step s (Event.addTask p) =
        Except.ok { s with tasks := s.tasks ++ [entryOf s.heap p] } := by
      simp [step, AddTask, ht, pqPush, entryOf]
    simp only [List.map_cons, run, hstep]
    rw [ih { s with tasks := s.tasks ++ [entryOf s.heap p] }
      (fun q hq => h q (List.mem_cons_of_mem _ hq))]
    simp

theorem pqDrain_strict (n : Nat) (q : List PII) (hn : q.length = n)
    (hd : (q.map Prod.fst).Nodup) :
    List.Pairwise (fun a b => a.1 < b.1) (pqDrain n q) := by
  have h1 := pqDrain_sorted n q hn
  have h2 : (((pqDrain n q).map Prod.fst)).Nodup :=
    ((List.Perm.map Prod.fst (pqDrain_perm n q hn)).nodup_iff).mpr hd
  have h3 : List.Pairwise (fun a b : PII => a.1 ≠ b.1) (pqDrain n q) :=
    List.pairwise_map.mp h2
  exact (h1.and h3).imp (fun hab => lt_of_le_of_ne hab.1 hab.2)

theorem worker_drains (nows : List Int) (s : Sched) (w : Nat)
    (hw : s.workers[w]? = some WorkerState.loopHead) (hs : s.stop = false)
    (hlen : nows.length = s.tasks.length)
    (hdue : ∀ now ∈ nows, ∀ entry ∈ s.tasks, entry.1 ≤ now)
    (hobj : ∀ entry ∈ s.tasks, ∃ e, s.heap entry.2 = some (Task.OneTimeTask e Action.returns))
    (hnd : (s.tasks.map Prod.snd).Nodup) :
    ∃ s1, workerIterations s w nows = Except.ok s1 ∧
      s1.log = s.log ++ pqDrain s.tasks.length s.tasks ∧ s1.tasks = [] := by
  induction nows generalizing s with
  | nil =>
    have : s.tasks = [] := List.length_eq_zero.mp hlen.symm
    exact ⟨s, rfl, by simp [this, pqDrain], this⟩
  | cons now rest ih =>
    cases ht : pqTop s.tasks with
    | none =>
      have : s.tasks = [] := pqTop_eq_none.mp ht
      rw [this] at hlen
      simp at hlen
    | some item =>
      have hmem := pqTop_mem ht
      have hperm := pqPop_perm ht
      have hl := pqPop_length ht
      obtain ⟨e, he⟩ := hobj item hmem
      have hit := workerIteration_due s w now item hw hs ht
        (hdue now (List.mem_cons_self _ _) item hmem)
      rw [workerExecute_oneTime
        (setWorker { s with tasks := pqPop s.tasks } w (WorkerState.running item)) w item e
        he] at hit
      have hnd2 : ((item :: pqPop s.tasks).map Prod.snd).Nodup :=
        ((List.Perm.map Prod.snd hperm).nodup_iff).mpr hnd
      simp only [List.map_cons, List.nodup_cons] at hnd2
      have hsub : ∀ entry ∈ pqPop s.tasks, entry ∈ s.tasks := fun entry hm =>
        hperm.subset (List.mem_cons_of_mem _ hm)
      obtain ⟨s1, hrun, hlog, htasks⟩ := ih
        (setWorker
          { setWorker { s with tasks := pqPop s.tasks } w (WorkerState.running item) with
            heap := Function.update s.heap item.2 none
            log := s.log ++ [item] } w WorkerState.loopHead)
        (by
          simp only [setWorker_workers, List.set_set]
          exact getElem?_set_of_getElem? hw)
        hs
        (by
          simp only [List.length_cons] at hlen
          simp only [setWorker_tasks]
          omega)
        (fun t htm entry hm => hdue t (List.mem_cons_of_mem _ htm) entry (hsub entry hm))
        (by
          intro entry hm
          obtain ⟨e1, he1⟩ := hobj entry (hsub entry hm)
          refine ⟨e1, ?_⟩
          have hne : entry.2 ≠ item.2 := by
            intro hc
            exact hnd2.1 (hc ▸ List.mem_map.mpr ⟨entry, hm, rfl⟩)
          simp only [setWorker_heap]
          rw [Function.update_noteq hne]
          exact he1)
        hnd2.2
      refine ⟨s1, ?_, ?_, htasks⟩
      · simp only [workerIterations, hit]
        exact hrun
      · rw [hlog]
        simp only [setWorker_log, setWorker_tasks]
        rw [← hl]
        simp [pqDrain, ht]


theorem getElem?_replicate_loopHead {n w : Nat} (h : w < n) :
    (List.replicate n WorkerState.loopHead)[w]? = some WorkerState.loopHead := by
  simp [List.getElem?_replicate, h]

/-- C2. OneTime tasks with pairwise distinct execution times are passed to `AddTask` in any
order on the empty scheduler.  Then the entries removed by successive `top()`/`pop()` calls
are the submitted entries, each once, in strictly ascending order of execution time: an
entry with a smaller execution time is removed before one with a larger.  A worker thread
passing through its loop once per task, at clock readings at which all tasks are due and
with actions that return, executes the tasks in exactly that order and leaves the ready set
empty. -/
theorem removal_in_time_order (heap : Nat → Option Task) (n : Nat) (ps : List Nat)
    (hone : ∀ p ∈ ps, ∃ e a, heap p = some (Task.OneTimeTask e a))
    (hdist : ((ps.map (entryOf heap)).map Prod.fst).Nodup) :
    ∃ s, run (TaskManager heap n) (ps.map Event.addTask) = Except.ok s ∧
      s.tasks = ps.map (entryOf heap) ∧
      List.Perm (pqDrain ps.length s.tasks) (ps.map (entryOf heap)) ∧
      List.Pairwise (fun a b => a.1 < b.1) (pqDrain ps.length s.tasks) ∧
      (∀ (i j : Nat) (hi : i < (pqDrain ps.length s.tasks).length)
        (hj : j < (pqDrain ps.length s.tasks).length),
        (pqDrain ps.length s.tasks)[i].1 < (pqDrain ps.length s.tasks)[j].1 → i < j) ∧
      (∀ (w : Nat) (nows : List Int), w < n → nows.length = ps.length →
        (∀ now ∈ nows, ∀ p ∈ ps, (entryOf heap p).1 ≤ now) →
        (∀ p ∈ ps, ∃ e, heap p = some (Task.OneTimeTask e Action.returns)) →
        ∃ s1, workerIterations s w nows = Except.ok s1 ∧
          s1.log = pqDrain ps.length s.tasks ∧ s1.tasks = []) := by
  have hrun := run_addTasks ps (TaskManager heap n) (fun p hp => by
    obtain ⟨e, a, h⟩ := hone p hp
    exact ⟨_, h⟩)
  have htasks : ({ TaskManager heap n with
      tasks := (TaskManager heap n).tasks ++ ps.map (entryOf (TaskManager heap n).heap) }
        : Sched).tasks = ps.map (entryOf heap) := by
    simp [TaskManager]
  refine ⟨_, hrun, htasks, ?_, ?_, ?_, ?_⟩
  · rw [htasks]
    exact pqDrain_perm _ _ (by simp)
  · rw [htasks]
    exact pqDrain_strict _ _ (by simp) hdist
  · rw [htasks]
    intro i j hi hj hlt
    have hpw := pqDrain_strict ps.length (ps.map (entryOf heap)) (by simp) hdist
    by_contra hc
    have hji : j ≤ i := by omega
    rcases Nat.lt_or_eq_of_le hji with hlt2 | heq
    · have := List.pairwise_iff_getElem.mp hpw j i hj hi hlt2
      omega
    · subst heq
      omega
  · intro w nows hw hlen hdue hret
    have hps : ps.Nodup := by
      have h1 : (ps.map (entryOf heap)).Nodup := List.Nodup.of_map _ hdist
      exact List.Nodup.of_map _ h1
    have hd := worker_drains nows
      { TaskManager heap n with
        tasks := (TaskManager heap n).tasks ++ ps.map (entryOf (TaskManager heap n).heap) } w
      (getElem?_replicate_loopHead hw) rfl
      (by rw [htasks]; simp [hlen])
      (by
        rw [htasks]
        intro now hnow entry hentry
        obtain ⟨p, hp, rfl⟩ := List.mem_map.mp hentry
        exact hdue now hnow p hp)
      (by
        rw [htasks]
        intro entry hentry
        obtain ⟨p, hp, rfl⟩ := List.mem_map.mp hentry
        exact hret p hp)
      (by
        rw [htasks]
        simpa [entryOf, Function.comp_def] using hps)
    obtain ⟨s1, h1, h2, h3⟩ := hd
    refine ⟨s1, h1, ?_, h3⟩
    rw [h2, htasks]
    simp [TaskManager]

theorem removal_in_time_order_witness :
    (∀ p ∈ [1, 0], ∃ e a, mainHeap 100 p = some (Task.OneTimeTask e a)) ∧
    (([1, 0].map (entryOf (mainHeap 100))).map Prod.fst).Nodup ∧
    ∃ s, run (TaskManager (mainHeap 100) 2) ([1, 0].map Event.addTask) = Except.ok s ∧
      s.tasks = [1, 0].map (entryOf (mainHeap 100)) ∧
      List.Perm (pqDrain [1, 0].length s.tasks) ([1, 0].map (entryOf (mainHeap 100))) ∧
      List.Pairwise (fun a b => a.1 < b.1) (pqDrain [1, 0].length s.tasks) ∧
      (∀ (i j : Nat) (hi : i < (pqDrain [1, 0].length s.tasks).length)
        (hj : j < (pqDrain [1, 0].length s.tasks).length),
        (pqDrain [1, 0].length s.tasks)[i].1 < (pqDrain [1, 0].length s.tasks)[j].1 → i < j) ∧
      (∀ (w : Nat) (nows : List Int), w < 2 → nows.length = [1, 0].length →
        (∀ now ∈ nows, ∀ p ∈ [1, 0], (entryOf (mainHeap 100) p).1 ≤ now) →
        (∀ p ∈ [1, 0], ∃ e, mainHeap 100 p = some (Task.OneTimeTask e Action.returns)) →
        ∃ s1, workerIterations s w nows = Except.ok s1 ∧
          s1.log = pqDrain [1, 0].length s.tasks ∧ s1.tasks = []) :=
  have h1 : ∀ p ∈ [1, 0], ∃ e a, mainHeap 100 p = some (Task.OneTimeTask e a) := by
    intro p hp
    simp only [List.mem_cons, List.mem_singleton, List.not_mem_nil, or_false] at hp
    rcases hp with rfl | rfl
    · exact ⟨101, Action.returns, rfl⟩
    · exact ⟨100, Action.returns, rfl⟩
  have h2 : (([1, 0].map (entryOf (mainHeap 100))).map Prod.fst).Nodup := by decide
  ⟨h1, h2, removal_in_time_order (mainHeap 100) 2 [1, 0] h1 h2⟩


/-! ## The scenario of `main` -/

theorem run_append (a b : List Event) (s s1 : Sched) (h : run s a = Except.ok s1) :
    run s (a ++ b) = run s1 b := by
  induction a generalizing s with
  | nil =>
    simp only [run, Except.ok.injEq] at h
    subst h
    rfl
  | cons ev rest ih =>
    simp only [run, List.cons_append] at h ⊢
    cases hs : step s ev with
    | error f => rw [hs] at h; cases h
    | ok s2 =>
      rw [hs] at h
      simp only
      exact ih s2 h

theorem step_all_returned {s s1 : Sched} {ev : Event}
    (hall : ∀ (w : Nat) (st : WorkerState), s.workers[w]? = some st → st = WorkerState.returned)
    (hev : submits [ev] = []) (h : step s ev = Except.ok s1) :
    s1.tasks = s.tasks ∧ s1.log = s.log ∧ s1.workers = s.workers ∧ s1.heap = s.heap := by
  cases ev with
  | addTask task => simp [submits] at hev
  | stopScheduler =>
    simp only [step, Except.ok.injEq] at h
    subst h
    exact ⟨rfl, rfl, rfl, rfl⟩
  | work w now =>
    simp only [step] at h
    cases hs : s.workers[w]? with
    | none =>
      simp only [hs, Except.ok.injEq] at h
      subst h
      exact ⟨rfl, rfl, rfl, rfl⟩
    | some st =>
      have := hall w st hs
      subst this
      simp only [hs, Except.ok.injEq] at h
      subst h
      exact ⟨rfl, rfl, rfl, rfl⟩

theorem step_total_of_no_submit (s : Sched) (ev : Event)
    (hall : ∀ (w : Nat) (st : WorkerState), s.workers[w]? = some st → st = WorkerState.returned)
    (hev : submits [ev] = []) : ∃ s1, step s ev = Except.ok s1 := by
  cases ev with
  | addTask task => simp [submits] at hev
  | stopScheduler => exact ⟨_, rfl⟩
  | work w now =>
    simp only [step]
    cases hs : s.workers[w]? with
    | none => exact ⟨_, rfl⟩
    | some st =>
      have := hall w st hs
      subst this
      exact ⟨_, rfl⟩

theorem run_all_returned (evs : List Event) (s : Sched)
    (hall : ∀ (w : Nat) (st : WorkerState), s.workers[w]? = some st → st = WorkerState.returned)
    (hev : submits evs = []) :
    ∃ s1, run s evs = Except.ok s1 ∧
      s1.tasks = s.tasks ∧ s1.log = s.log ∧ s1.workers = s.workers ∧ s1.heap = s.heap := by
  induction evs generalizing s with
  | nil => exact ⟨s, rfl, rfl, rfl, rfl, rfl⟩
  | cons ev rest ih =>
    rw [submits_cons] at hev
    have hev1 : submits [ev] = [] := (List.append_eq_nil.mp hev).1
    have hev2 : submits rest = [] := (List.append_eq_nil.mp hev).2
    obtain ⟨s2, hs2⟩ := step_total_of_no_submit s ev hall hev1
    obtain ⟨ht, hl, hw, hh⟩ := step_all_returned hall hev1 hs2
    obtain ⟨s1, hr, h1, h2, h3, h4⟩ := ih s2 (by rw [hw]; exact hall) hev2
    refine ⟨s1, ?_, h1.trans ht, h2.trans hl, h3.trans hw, h4.trans hh⟩
    simp only [run, hs2]
    exact hr

/-- C8, the code at the failing input.  In the scenario of `main`, when the two threads
started by the constructor reach the test of line 90 before the first `AddTask` call, both
return from `worker`; the three tasks are then queued, and whatever the threads and
`stopScheduler` do afterwards, at whatever clock readings, no action is ever invoked and
the three entries stay in the ready set. -/
theorem main_early_workers_execute_nothing (t now0 now1 : Int) (evs : List Event)
    (h0 : inLong t) (h5 : inLong (t + 5)) (hev : submits evs = []) :
    ∃ s, run (mainStart t)
        ([Event.work 0 now0, Event.work 1 now1] ++ mainSubmits ++ evs) = Except.ok s ∧
      s.log = [] ∧ s.tasks = [(t, 0), (t + 1, 1), (t + 5, 2)] ∧
      s.workers = [WorkerState.returned, WorkerState.returned] := by
  have h1 : inLong (t + 1) := by unfold inLong at *; omega
  have hpre : run (mainStart t) ([Event.work 0 now0, Event.work 1 now1] ++ mainSubmits) =
      Except.ok { mainQueued t with
        workers := [WorkerState.returned, WorkerState.returned] } := by
    simp [run, step, mainStart, mainSubmits, AddTask, TaskManager, mainHeap,
      Task.newOneTimeTask, Task.newRecurringTask, Task.getExecutionTime,
      wrapLong_of_inLong h5, wrapLong_of_inLong h1, wrapLong_of_inLong h0, pqPush, mainQueued,
      workerCheck, setWorker]
  rw [run_append _ evs _ _ hpre]
  obtain ⟨s1, hr, ht, hl, hw, _⟩ := run_all_returned evs
    { mainQueued t with workers := [WorkerState.returned, WorkerState.returned] }
    (by
      intro w st hst
      match w, hst with
      | 0, hst => simpa using hst.symm
      | 1, hst => simpa using hst.symm
      | n + 2, hst => simp at hst)
    hev
  exact ⟨s1, hr, hl, ht, hw⟩

theorem main_early_workers_execute_nothing_witness :
    inLong 100 ∧ inLong (100 + 5) ∧
    submits [Event.work 0 100, Event.work 1 101, Event.work 0 105, Event.work 1 107,
      Event.work 0 109, Event.stopScheduler] = [] ∧
    ∃ s, run (mainStart 100)
        ([Event.work 0 100, Event.work 1 100] ++ mainSubmits ++
          [Event.work 0 100, Event.work 1 101, Event.work 0 105, Event.work 1 107,
            Event.work 0 109, Event.stopScheduler]) = Except.ok s ∧
      s.log = [] ∧ s.tasks = [((100 : Int), 0), (100 + 1, 1), (100 + 5, 2)] ∧
      s.workers = [WorkerState.returned, WorkerState.returned] :=
  ⟨by decide, by decide, rfl,
    main_early_workers_execute_nothing 100 100 100 _ (by decide) (by decide) rfl⟩

/-- The scenario of `main` when no thread reaches the test of line 90 before the three
`AddTask` calls and one thread does all the work (clock at 100 when `main` starts): the
actions invoked are those of `task1` keyed 100, `task2` keyed 101 and `task3` keyed 105,
107 and 109, in that order, and after `stopScheduler` at 110 both threads have returned
with `task3` queued for 111. -/
theorem main_late_workers :
    ∃ s, run (mainStart 100)
        (mainSubmits ++
          [Event.work 0 100, Event.work 0 100, Event.work 0 100,
            Event.work 0 100, Event.work 0 100,
            Event.work 0 101, Event.work 0 101, Event.work 0 101,
            Event.work 0 101, Event.work 0 101,
            Event.work 0 105, Event.work 0 105, Event.work 0 105,
            Event.work 0 105, Event.work 0 105,
            Event.work 0 107, Event.work 0 107, Event.work 0 107,
            Event.work 0 107, Event.work 0 107,
            Event.work 0 109, Event.work 0 109, Event.work 0 109,
            Event.work 0 109, Event.work 0 110,
            Event.stopScheduler, Event.work 0 110, Event.work 1 110]) = Except.ok s ∧
      s.log = [(100, 0), (101, 1), (105, 2), (107, 2), (109, 2)] ∧
      s.tasks = [(111, 2)] ∧
      s.heap 2 = some (Task.RecurringTask 111 2 Action.returns) ∧
      s.workers = [WorkerState.returned, WorkerState.returned] :=
  ⟨_, rfl, rfl, rfl, rfl, rfl⟩


/-! ## A pass of a worker is a run of its own steps -/

/-- A pass of thread `w` that starts at the loop head is a run of at most three consecutive
`work` events of that thread. -/
theorem workerIteration_is_run (s : Sched) (w : Nat) (now : Int)
    (hw : s.workers[w]? = some WorkerState.loopHead) :
    ∃ k, k ≤ 3 ∧ workerIteration s w now = run s (List.replicate k (Event.work w now)) := by
  by_cases hr : s.tasks = [] ∨ s.stop = true
  · refine ⟨1, by omega, ?_⟩
    rw [workerIteration_return s w now hw hr]
    have hc : workerCheck s w = setWorker s w WorkerState.returned := by
      unfold workerCheck
      rcases hr with h | h <;> simp [h]
    simp only [List.replicate, run, step, hw, hc]
  · have hne : s.tasks ≠ [] := fun hc => hr (Or.inl hc)
    have hs : s.stop = false := by
      cases hst : s.stop with
      | false => rfl
      | true => exact absurd (Or.inr hst) hr
    have hc := workerCheck_pass s w hne hs
    have hw1 : (setWorker s w WorkerState.acquiring).workers[w]? = some WorkerState.acquiring :=
      getElem?_set_of_getElem? hw
    cases ht : pqTop s.tasks with
    | none => exact absurd (pqTop_eq_none.mp ht) hne
    | some item =>
      by_cases hn : item.1 > now
      · refine ⟨2, by omega, ?_⟩
        rw [workerIteration_wait s w now item hw hs ht hn]
        have hl : workerLocked (setWorker s w WorkerState.acquiring) w now = s := by
          unfold workerLocked
          simp only [setWorker_tasks, ht, hn, if_true]
          cases s with
          | mk heap tasks stop workers log =>
            simp only [setWorker, List.set_set]
            simp only at hw
            rw [set_self_of_getElem? hw]
        simp only [List.replicate, run, step, hw, hc, hw1, hl]
      · refine ⟨3, by omega, ?_⟩
        have hle : item.1 ≤ now := by omega
        rw [workerIteration_due s w now item hw hs ht hle]
        have hl : workerLocked (setWorker s w WorkerState.acquiring) w now =
            setWorker { s with tasks := pqPop s.tasks } w (WorkerState.running item) := by
          unfold workerLocked
          simp only [setWorker_tasks, ht, hn, if_false]
          simp only [setWorker, List.set_set]
        have hw2 : (setWorker { s with tasks := pqPop s.tasks } w
            (WorkerState.running item)).workers[w]? = some (WorkerState.running item) :=
          getElem?_set_of_getElem? hw
        simp only [List.replicate, run, step, hw, hc, hw1, hl, hw2]
        cases workerExecute (setWorker { s with tasks := pqPop s.tasks } w
            (WorkerState.running item)) w item <;> rfl

end TaskScheduler
